import Mathlib

/-!
# go-environment-configs: the traversal engine of visit.go

A shallow embedding of `src/visit.go` (package `configs`): the name deriver
`envFromName`, the reflective traversal `visit` / `doVisit`, and the error
aggregator `appendError` / `Ensure` / `traversalError.Error`.

Go strings are byte sequences; they are modelled as lists of byte values.
Runes are natural numbers, type Nat (every rune that `utf8.DecodeRuneInString` returns
is non-negative).  The functions of the Go standard library that the source
calls are modelled from their documented behaviour (`utf8`, `strings.Builder`)
or taken as parameters (`unicode` case tables, `strings.ToLower`,
`fmt.Sprintf`, `os.Getenv`).
-/

set_option autoImplicit false

namespace Configs

/-! ## Strings and runes -/

/-- A Go string: its bytes, each a value below 256. -/
abbrev GoString := List Nat

/-- The constant utf8.RuneError, U+FFFD. -/
def RuneError : Nat := 0xFFFD

/-- The constant utf8.MaxRune, U+10FFFF. -/
def MaxRune : Nat := 0x10FFFF

/-- Go's utf8.AppendRune, which strings.Builder.WriteRune calls: the UTF-8
encoding of r appended to p; a surrogate or a rune above MaxRune is written
as RuneError.  The shifts and masks of the Go code are written with division
and remainder (r >> 6 is r / 64, x & 0x3F is x % 64, t | x is t + x for x
below the tag). -/
def AppendRune (p : GoString) (r : Nat) : GoString :=
  if r ≤ 0x7F then p ++ [r]
  else if r ≤ 0x7FF then p ++ [0xC0 + r / 64, 0x80 + r % 64]
  else if MaxRune < r ∨ (0xD800 ≤ r ∧ r ≤ 0xDFFF) then p ++ [0xEF, 0xBF, 0xBD]
  else if r ≤ 0xFFFF then
    p ++ [0xE0 + r / 4096, 0x80 + (r / 64) % 64, 0x80 + r % 64]
  else
    p ++ [0xF0 + r / 262144, 0x80 + (r / 4096) % 64, 0x80 + (r / 64) % 64, 0x80 + r % 64]

/-- The table utf8.first together with utf8.acceptRanges: for a leading byte
that starts a multi-byte sequence, the size of the sequence and the accepted
range of the second byte; none for ASCII bytes and for invalid leading bytes. -/
def first (s0 : Nat) : Option (Nat × Nat × Nat) :=
  if s0 < 0xC2 then none
  else if s0 < 0xE0 then some (2, 0x80, 0xBF)
  else if s0 = 0xE0 then some (3, 0xA0, 0xBF)
  else if s0 < 0xED then some (3, 0x80, 0xBF)
  else if s0 = 0xED then some (3, 0x80, 0x9F)
  else if s0 < 0xF0 then some (3, 0x80, 0xBF)
  else if s0 = 0xF0 then some (4, 0x90, 0xBF)
  else if s0 < 0xF4 then some (4, 0x80, 0xBF)
  else if s0 = 0xF4 then some (4, 0x80, 0x8F)
  else none

/-- Go's utf8.DecodeRuneInString: the first rune of s and its width in
bytes; (RuneError, 0) for the empty string and (RuneError, 1) for an
ill-formed sequence. -/
def DecodeRuneInString (s : GoString) : Nat × Nat :=
  match s with
  | [] => (RuneError, 0)
  | s0 :: _ =>
    match first s0 with
    | none => if s0 < 0x80 then (s0, 1) else (RuneError, 1)
    | some (sz, lo, hi) =>
      if s.length < sz then (RuneError, 1)
      else
        let s1 := s.getD 1 0
        if s1 < lo ∨ hi < s1 then (RuneError, 1)
        else if sz ≤ 2 then ((s0 % 32) * 64 + s1 % 64, 2)
        else
          let s2 := s.getD 2 0
          if s2 < 0x80 ∨ 0xBF < s2 then (RuneError, 1)
          else if sz ≤ 3 then ((s0 % 16) * 4096 + (s1 % 64) * 64 + s2 % 64, 3)
          else
            let s3 := s.getD 3 0
            if s3 < 0x80 ∨ 0xBF < s3 then (RuneError, 1)
            else ((s0 % 8) * 262144 + (s1 % 64) * 4096 + (s2 % 64) * 64 + s3 % 64, 4)

/-- The UTF-8 encoding of a sequence of code points. -/
def utf8Encode (rs : List Nat) : GoString :=
  rs.foldl AppendRune []

/-- The code points of a text. -/
def codePoints (s : String) : List Nat :=
  s.toList.map Char.toNat

/-- A Go string literal: the UTF-8 bytes of the text. -/
def goString (s : String) : GoString :=
  utf8Encode (codePoints s)

/-- The case tables of Go's unicode package that envFromName consults. -/
structure CaseTables where
  /-- Go's unicode.IsUpper -/
  IsUpper : Nat → Bool
  /-- Go's unicode.IsLower -/
  IsLower : Nat → Bool
  /-- Go's unicode.ToUpper -/
  ToUpper : Nat → Nat

/-- Case tables that agree with Go's unicode package on ASCII, on the Greek
pair U+0386 / U+03AC and on every code point without case (digits, the
underscore, ideographs); used to evaluate the examples of the tests. -/
def sampleTables : CaseTables where
  IsUpper := fun r => (0x41 ≤ r ∧ r ≤ 0x5A) ∨ r = 0x386
  IsLower := fun r => (0x61 ≤ r ∧ r ≤ 0x7A) ∨ r = 0x3AC
  ToUpper := fun r =>
    if 0x61 ≤ r ∧ r ≤ 0x7A then r - 32 else if r = 0x3AC then 0x386 else r

/-! ## The name deriver -/

/-- The loop of envFromName: one iteration per decoded code point of rest.
The loop has no bound in the source; here it runs on fuel and yields none
when the fuel is used up before rest is empty. -/
def envLoop (U : CaseTables) : Nat → Nat → GoString → GoString → Option GoString
  | fuel, lastRune, rest, sb =>
    if rest.length > 0 then
      match fuel with
      | 0 => none
      | fuel + 1 =>
        let (thisRune, width) := DecodeRuneInString rest
        let sb1 := if U.IsUpper thisRune && U.IsLower lastRune then sb ++ [0x5F] else sb
        envLoop U fuel thisRune (rest.drop width) (AppendRune sb1 (U.ToUpper thisRune))
    else some sb

/-- The function envFromName of visit.go.  The fuel is the length of the
name: every iteration consumes at least one byte. -/
def envFromName (U : CaseTables) (name : GoString) : Option GoString :=
  let (thisRune, width) := DecodeRuneInString name
  envLoop U name.length thisRune (name.drop width) (AppendRune [] (U.ToUpper thisRune))

/-! ## Reflected records -/

mutual
/-- A value as doVisit sees it through package reflect, together with its
declared type.  A finite tree: a record that reaches itself through its
pointers is not represented.
* basic: a value whose kind is neither Ptr nor Struct (bool, int, string,
  slice, ...); typ is Type.String() and data stands for the current value;
* struct: a struct held by value (such as big.Int), with its fields;
* nilPtr: a nil pointer; elemTyp is the String() of the pointed-to type and
  elemNumField its NumField() when that type is a struct, none otherwise;
* ptr: a non-nil pointer to target. -/
inductive GoValue where
  | basic (typ : GoString) (data : GoString)
  | struct (typ : GoString) (fields : GoFields)
  | nilPtr (elemTyp : GoString) (elemNumField : Option Nat)
  | ptr (target : GoValue)
/-- The fields of a struct in declaration order: name and value. -/
inductive GoFields where
  | nil
  | cons (name : GoString) (value : GoValue) (rest : GoFields)
end

deriving instance DecidableEq for GoValue

deriving instance DecidableEq for Except

/-- Whether Type.Kind() is reflect.Ptr. -/
def GoValue.isPtr : GoValue → Bool
  | .nilPtr _ _ => true
  | .ptr _ => true
  | _ => false

/-- The result of Type.String(). -/
def GoValue.typeString : GoValue → GoString
  | .basic typ _ => typ
  | .struct typ _ => typ
  | .nilPtr elemTyp _ => 0x2A :: elemTyp
  | .ptr target => 0x2A :: target.typeString

/-- The map terminalTypes of visit.go, as the list of its keys. -/
def terminalTypes : List GoString :=
  [goString "big.Int", goString "*big.Int"]

/-! ## Errors -/

/-- The struct visitError: the message of the embedded error (which is
taken to be non-nil), and Key. -/
structure visitError where
  error : GoString
  Key : GoString
deriving DecidableEq, Repr

/-- The struct traversalError.  The map invalidKeys is a list of entries
(key, message of the stored error); the order of the list is the order of
insertion and has no counterpart in Go. -/
structure traversalError where
  summary : GoString
  invalidKeys : List (GoString × GoString)
deriving DecidableEq, Repr

/-- A value of the interface type error: nil, a non-nil *traversalError, or
an error of another dynamic type (with its message). -/
inductive GoError where
  | nil
  | traversal (p : traversalError)
  | foreign (msg : GoString)
deriving DecidableEq, Repr

/-- How a call can end other than by returning: a Go panic (msg is the
fixed part of the message that Go prints), or the fuel of envLoop used up. -/
inductive Abort where
  | panic (msg : String)
  | outOfFuel
deriving DecidableEq, Repr

/-- The map read m[key] with the comma-ok form. -/
def mapLookup : List (GoString × GoString) → GoString → Option GoString
  | [], _ => none
  | (k, x) :: m, key => if k = key then some x else mapLookup m key

/-- The map assignment m[key] = val. -/
def mapSet : List (GoString × GoString) → GoString → GoString → List (GoString × GoString)
  | [], key, val => [(key, val)]
  | (k, x) :: m, key, val => if k = key then (k, val) :: m else (k, x) :: mapSet m key val

/-- The function appendError of visit.go; msg is the message of the error
that is merged in. -/
def appendError (err : GoError) (key : GoString) (msg : GoString) : Except Abort GoError :=
  match err with
  | .nil => .ok (.traversal { summary := [], invalidKeys := [(key, msg)] })
  | .traversal casted =>
    match mapLookup casted.invalidKeys key with
    | some existing =>
      .ok (.traversal { casted with
        invalidKeys := mapSet casted.invalidKeys key (existing ++ goString ": " ++ msg) })
    | none =>
      .ok (.traversal { casted with invalidKeys := mapSet casted.invalidKeys key msg })
  | .foreign _ => .error (.panic "Ensure() only works on errors returend by this library")

/-- An operand of a format verb. -/
inductive GoArg where
  | str (s : GoString)
  | int (n : Int)
deriving DecidableEq, Repr

/-- The function Ensure of visit.go; sprintf is Go's fmt.Sprintf, which
gives the message of the error that fmt.Errorf builds. -/
def Ensure (sprintf : GoString → List GoArg → GoString) (err : GoError) (key : GoString)
    (predicate : Bool) (msgFormat : GoString) (msgArgs : List GoArg) : Except Abort GoError :=
  if predicate then .ok err
  else appendError err key (sprintf msgFormat msgArgs)

/-- A stand-in for fmt.Sprintf that agrees with it when the format has no
verb and there are no operands. -/
def sampleSprintf (msgFormat : GoString) (_msgArgs : List GoArg) : GoString :=
  msgFormat

/-- Whether s begins with t. -/
def startsWith : GoString → GoString → Bool
  | _, [] => true
  | [], _ :: _ => false
  | a :: s, b :: t => a == b && startsWith s t

/-- Go's strings.Contains. -/
def Contains : GoString → GoString → Bool
  | [], substr => substr.isEmpty
  | a :: s, substr => startsWith (a :: s) substr || Contains s substr

/-- A stand-in for strings.ToLower that agrees with it on ASCII strings. -/
def sampleToLower (s : GoString) : GoString :=
  s.map (fun c => if 0x41 ≤ c ∧ c ≤ 0x5A then c + 32 else c)

/-- The line that traversalError.Error writes for one entry of invalidKeys;
toLower is strings.ToLower and getenv is os.Getenv. -/
def errorLine (toLower : GoString → GoString) (getenv : GoString → GoString)
    (env : GoString) (err : GoString) : GoString :=
  if Contains (toLower env) (goString "password") then
    goString "  " ++ env ++ goString " " ++ err ++ goString "\n"
  else
    goString "  " ++ env ++ goString " " ++ err ++ goString ": got \"" ++ getenv env
      ++ goString "\"\n"

/-- The method traversalError.Error for a non-nil receiver, when the range
over invalidKeys yields the entries in the given order. -/
def traversalError.ErrorIn (toLower : GoString → GoString) (getenv : GoString → GoString)
    (order : List (GoString × GoString)) : GoString :=
  goString "Errors occurred while acting on the struct:\n"
    ++ (order.map (fun e => errorLine toLower getenv e.1 e.2)).flatten

/-- The texts that traversalError.Error can return: Go leaves the order of a
range over a map open, so there is one text for each ordering of the
entries. -/
def traversalError.IsError (toLower : GoString → GoString) (getenv : GoString → GoString)
    (p : traversalError) (text : GoString) : Prop :=
  ∃ order, order.Perm p.invalidKeys ∧ text = traversalError.ErrorIn toLower getenv order

/-! ## The traversal -/

/-- One call of the visitor: its two arguments and what it returned. -/
structure Call where
  environment : GoString
  value : GoValue
  result : Option visitError
deriving DecidableEq

/-- The type visitor.  A Go visitor is a closure; sigma is the state it
reads and writes (the environment, the fields it sets). -/
abbrev visitor (σ : Type) := GoString → GoValue → σ → Option visitError × σ

/-- The progress of a traversal: the state of the visitor and the calls made
so far, oldest first. -/
structure Trace (σ : Type) where
  state : σ
  calls : List Call

mutual
/-- The function doVisit of visit.go.  theValue is the reflect.Value of the
container; a container that is not a pointer makes reflect panic (a slice,
array, map or channel of a field-less struct type would return errs; it is
reported as a panic here as well). -/
def doVisit {σ : Type} (U : CaseTables) (v : visitor σ) (environmentSoFar : GoString) :
    GoValue → GoError → Trace σ → Trace σ × Except Abort GoError
  | .ptr (.struct _ fields), errs, tr => doVisitFields U v environmentSoFar fields errs tr
  | .ptr _, _, tr => (tr, .error (.panic "reflect: NumField of non-struct type"))
  | .nilPtr _ (some 0), errs, tr => (tr, .ok errs)
  | .nilPtr _ (some (_ + 1)), _, tr =>
    (tr, .error (.panic "reflect: call of reflect.Value.Field on zero Value"))
  | .nilPtr _ none, _, tr => (tr, .error (.panic "reflect: NumField of non-struct type"))
  | .basic _ _, _, tr => (tr, .error (.panic "reflect: Elem of invalid type"))
  | .struct _ _, _, tr => (tr, .error (.panic "reflect: Elem of invalid type"))
/-- The loop of doVisit over the fields from index i on; the fields that
remain are the argument. -/
def doVisitFields {σ : Type} (U : CaseTables) (v : visitor σ) (environmentSoFar : GoString) :
    GoFields → GoError → Trace σ → Trace σ × Except Abort GoError
  | .nil, errs, tr => (tr, .ok errs)
  | .cons name thisFieldValue rest, errs, tr =>
    match envFromName U name with
    | none => (tr, .error .outOfFuel)
    | some segment =>
      let environment := environmentSoFar ++ goString "_" ++ segment
      if thisFieldValue.isPtr && !(terminalTypes.contains thisFieldValue.typeString) then
        match doVisit U v environment thisFieldValue errs tr with
        | (tr1, .ok errs1) => doVisitFields U v environmentSoFar rest errs1 tr1
        | (tr1, .error e) => (tr1, .error e)
      else
        let (err, state1) := v environment thisFieldValue tr.state
        let tr1 : Trace σ := { state := state1, calls := tr.calls ++ [⟨environment, thisFieldValue, err⟩] }
        match err with
        | none => doVisitFields U v environmentSoFar rest errs tr1
        | some e =>
          match appendError errs e.Key e.error with
          | .ok errs1 => doVisitFields U v environmentSoFar rest errs1 tr1
          | .error a => (tr1, .error a)
end

/-- The function visit of visit.go; state is the state of the visitor at
the time of the call. -/
def visit {σ : Type} (U : CaseTables) (container : GoValue) (v : visitor σ) (state : σ) :
    Trace σ × Except Abort GoError :=
  doVisit U v [] container .nil { state := state, calls := [] }

/-! ## Vocabulary of the specification -/

/-- A Unicode scalar value: a code point that has a UTF-8 encoding. -/
def ValidRune (r : Nat) : Prop :=
  r ≤ MaxRune ∧ ¬ (0xD800 ≤ r ∧ r ≤ 0xDFFF)

instance (r : Nat) : Decidable (ValidRune r) := by
  unfold ValidRune; infer_instance

/-- The segment of the specification for the code points after the first:
each code point c upper-cased, with an underscore before it when c is
upper-case and the code point before it (last) is lower-case. -/
def snakeTail (U : CaseTables) : Nat → List Nat → List Nat
  | _, [] => []
  | last, c :: cs =>
    (if U.IsUpper c && U.IsLower last then [0x5F, U.ToUpper c] else [U.ToUpper c])
      ++ snakeTail U c cs

/-- The upper-snake-case segment of the specification, on code points: the
first code point upper-cased, then snakeTail. -/
def upperSnake (U : CaseTables) : List Nat → List Nat
  | [] => []
  | c :: cs => U.ToUpper c :: snakeTail U c cs

/-- The decision of the switch in doVisit: the field is recursed into when
its kind is Ptr and its type is not a key of terminalTypes. -/
def GoValue.isNested (v : GoValue) : Bool :=
  v.isPtr && !(terminalTypes.contains v.typeString)

/-- LeafAt fields path leaf: following the field names of path from fields,
through allocated nested records, ends at the leaf field with value leaf. -/
inductive LeafAt : GoFields → List GoString → GoValue → Prop where
  | atField (name : GoString) (value : GoValue) (rest : GoFields) :
      value.isNested = false → LeafAt (.cons name value rest) [name] value
  | inNested (name typ : GoString) (fields rest : GoFields) (path : List GoString)
      (leaf : GoValue) :
      (GoValue.ptr (.struct typ fields)).isNested = true → LeafAt fields path leaf →
      LeafAt (.cons name (.ptr (.struct typ fields)) rest) (name :: path) leaf
  | inRest (name : GoString) (value : GoValue) (rest : GoFields) (path : List GoString)
      (leaf : GoValue) :
      LeafAt rest path leaf → LeafAt (.cons name value rest) path leaf

/-- The environment key of the specification: the start, then for each name
of the path an underscore and the segment of the name. -/
def envKey (U : CaseTables) (start : GoString) : List GoString → Option GoString
  | [] => some start
  | name :: path =>
    match envFromName U name with
    | none => none
    | some segment => envKey U (start ++ goString "_" ++ segment) path

/-- Every field that doVisit recurses into is a non-nil pointer to a struct,
and so on below it.  This asks two things of the pointer fields whose type
is not a key of terminalTypes: that they point to a record type, and that
they are allocated. -/
def GoFields.allocated : GoFields → Bool
  | .nil => true
  | .cons _ (.ptr (.struct typ fields)) rest =>
    (!(GoValue.ptr (.struct typ fields)).isNested || fields.allocated) && rest.allocated
  | .cons _ value rest => !value.isNested && rest.allocated

/-- The nested-record pointers are all allocated: no field whose type is a
pointer to a struct type, other than a key of terminalTypes, is nil, and so
on below the allocated ones.  A pointer to a type that is not a struct is
no nested-record pointer and is not constrained. -/
def GoFields.recordPointersAllocated : GoFields → Bool
  | .nil => true
  | .cons _ (.ptr (.struct typ fields)) rest =>
    (!(GoValue.ptr (.struct typ fields)).isNested || fields.recordPointersAllocated)
      && rest.recordPointersAllocated
  | .cons _ (.nilPtr elemTyp (some n)) rest =>
    !(GoValue.nilPtr elemTyp (some n)).isNested && rest.recordPointersAllocated
  | .cons _ _ rest => rest.recordPointersAllocated

/-- The errors that the visitor returned, in call order. -/
def failuresOf (calls : List Call) : List visitError :=
  calls.filterMap (fun c => c.result)

/-- The messages of the failing calls whose Key is key, in call order. -/
def messagesFor (calls : List Call) (key : GoString) : List GoString :=
  ((failuresOf calls).filter (fun e => e.Key = key)).map (fun e => e.error)

/-- Messages joined by a colon and a blank, the first one first. -/
def joinOnto (existing : GoString) (msgs : List GoString) : GoString :=
  msgs.foldl (fun acc m => acc ++ goString ": " ++ m) existing

/-- The message of a key for which the given messages were merged in turn;
none when there was no message. -/
def joinErrors : List GoString → Option GoString
  | [] => none
  | m :: msgs => some (joinOnto m msgs)

/-- The errors merged in turn into err with appendError. -/
def appendAll (err : GoError) : List visitError → Except Abort GoError
  | [] => .ok err
  | e :: es =>
    match appendError err e.Key e.error with
    | .ok err1 => appendAll err1 es
    | .error a => .error a

/-- The message that an error holds under a key. -/
def GoError.lookup : GoError → GoString → Option GoString
  | .traversal p, key => mapLookup p.invalidKeys key
  | _, _ => none

/-- Whether the error is of a type other than *traversalError. -/
def GoError.isForeign : GoError → Bool
  | .foreign _ => true
  | _ => false

/-- The keys of the map invalidKeys. -/
def traversalError.keys (p : traversalError) : List GoString :=
  p.invalidKeys.map Prod.fst

/-! ## The records of load_test.go -/

/-- A big.Int held by value: a struct with the fields neg and abs. -/
def bigIntValue : GoValue :=
  .struct (goString "big.Int")
    (.cons (goString "neg") (.basic (goString "bool") (goString "false"))
      (.cons (goString "abs") (.basic (goString "big.nat") []) .nil))

/-- The value Nested{} of load_test.go. -/
def testNested : GoValue :=
  .struct (goString "configs_test.Nested")
    (.cons (goString "Value") (.basic (goString "int") (goString "0"))
      (.cons (goString "BigIntPointer") (.nilPtr (goString "big.Int") (some 2)) .nil))

/-- The fields of the Config of load_test.go, the field Nested holding the
given value and the other fields zero. -/
def testConfigFields (nested : GoValue) : GoFields :=
  .cons (goString "Boolean") (.basic (goString "bool") (goString "false"))
  (.cons (goString "Int") (.basic (goString "int") (goString "0"))
  (.cons (goString "UINT_8") (.basic (goString "uint8") (goString "0"))
  (.cons (goString "UINT_16") (.basic (goString "uint16") (goString "0"))
  (.cons (goString "UINT_32") (.basic (goString "uint32") (goString "0"))
  (.cons (goString "UINT_64") (.basic (goString "uint64") (goString "0"))
  (.cons (goString "BigInt") bigIntValue
  (.cons (goString "String") (.basic (goString "string") [])
  (.cons (goString "IntSlice") (.basic (goString "[]int") [])
  (.cons (goString "StringSlice") (.basic (goString "[]string") [])
  (.cons (goString "Nested") nested
  (.cons (goString "SomePassword") (.basic (goString "string") [])
  (.cons (goString "Ά本語") (.basic (goString "string") []) .nil))))))))))))

/-- A pointer to that Config, as the tests pass it to LoadWithPrefix. -/
def testConfig (nested : GoValue) : GoValue :=
  .ptr (.struct (goString "configs_test.Config") (testConfigFields nested))

/-- The fields of a record with one field, Count, of type *int. -/
def counterFields : GoFields :=
  .cons (goString "Count") (.ptr (.basic (goString "int") (goString "5"))) .nil

/-- The fields of a record with the fields A of type int, P of type *int,
allocated, and B of type int. -/
def mixedFields : GoFields :=
  .cons (goString "A") (.basic (goString "int") (goString "1"))
    (.cons (goString "P") (.ptr (.basic (goString "int") (goString "5")))
      (.cons (goString "B") (.basic (goString "int") (goString "2")) .nil))

/-- The nil value of the field Nested, of type *Nested. -/
def nilNested : GoValue :=
  .nilPtr (goString "configs_test.Nested") (some 2)

/-- A visitor that accepts every leaf. -/
def acceptAll : visitor Unit :=
  fun _ _ state => (none, state)

/-- A visitor that rejects every leaf, under the key it was given. -/
def rejectAll : visitor Unit :=
  fun environment _ state => (some { error := goString "is invalid", Key := environment }, state)

/-! ## Vocabulary of the proofs -/

/-- The trace after one more call of the visitor. -/
def afterCall {σ : Type} (v : visitor σ) (environment : GoString) (value : GoValue)
    (tr : Trace σ) : Trace σ :=
  { state := (v environment value tr.state).2,
    calls := tr.calls ++ [⟨environment, value, (v environment value tr.state).1⟩] }

/-- The rest of the loop after the first field gave tr1 and r1. -/
def thenFields {σ : Type} (U : CaseTables) (v : visitor σ) (P : GoString) (rest : GoFields)
    (tr1 : Trace σ) (r1 : Except Abort GoError) : Trace σ × Except Abort GoError :=
  match r1 with
  | .ok errs1 => doVisitFields U v P rest errs1 tr1
  | .error e => (tr1, .error e)

/-- The leaves that are reached through the first field of a record. -/
def LeafAtHead (name : GoString) (value : GoValue) (path : List GoString)
    (leaf : GoValue) : Prop :=
  (value.isNested = false ∧ path = [name] ∧ leaf = value) ∨
  (∃ typ fields rest, value = .ptr (.struct typ fields) ∧ value.isNested = true ∧
    path = name :: rest ∧ LeafAt fields rest leaf)

/-- What one run of doVisitFields establishes. -/
def RunFacts {σ : Type} (U : CaseTables) (P : GoString) (fs : GoFields) (errs : GoError)
    (tr : Trace σ) (out : Trace σ × Except Abort GoError) : Prop :=
  ∃ new : List Call, out.1.calls = tr.calls ++ new ∧
    (∀ c ∈ new, ∃ path, LeafAt fs path c.value ∧ envKey U P path = some c.environment) ∧
    (∀ e, out.2 = .ok e →
      appendAll errs (failuresOf new) = .ok e ∧
      ∀ path leaf, LeafAt fs path leaf →
        ∃ c ∈ new, c.value = leaf ∧ envKey U P path = some c.environment) ∧
    (fs.allocated = true → errs.isForeign = false → ∃ e, out.2 = .ok e)

/-! ## Vocabulary of the specification: rendering -/

/-- The line of the specification for the key of an aggregated error p that
holds the message msg under it: two blanks, the key, a blank and msg, then
the got-suffix with the environment value of the key, or no suffix when the
lower-cased key contains password; no line for a key that p does not hold. -/
def keyLine (toLower : GoString → GoString) (getenv : GoString → GoString)
    (p : traversalError) (key : GoString) : GoString :=
  match mapLookup p.invalidKeys key with
  | none => []
  | some msg =>
    if Contains (toLower key) (goString "password") then
      goString "  " ++ key ++ goString " " ++ msg ++ goString "\n"
    else
      goString "  " ++ key ++ goString " " ++ msg ++ goString ": got \"" ++ getenv key
        ++ goString "\"\n"

/-- An environment in which MY_SOME_PASSWORD has the given value and every
other variable is unset. -/
def passwordEnv (secret : GoString) : GoString → GoString :=
  fun key => if key = goString "MY_SOME_PASSWORD" then secret else []

/-! ## Vocabulary of the specification: invariants, order, ASCII -/

/-- Whether the error is an aggregated error whose map holds no key. -/
def GoError.emptyMap : GoError → Bool
  | .traversal p => p.invalidKeys.isEmpty
  | _ => false

/-- The leaf fields of a record in depth-first declaration order, each with
its nesting path: the leaves of a nested record stand at the place of the
nested field, which is itself no entry of the list. -/
def leafPaths : GoFields → List (List GoString × GoValue)
  | .nil => []
  | .cons name (.ptr (.struct typ fields)) rest =>
    (if (GoValue.ptr (.struct typ fields)).isNested then
      (leafPaths fields).map (fun pv => (name :: pv.1, pv.2))
    else [([name], .ptr (.struct typ fields))]) ++ leafPaths rest
  | .cons name value rest =>
    (if value.isNested then [] else [([name], value)]) ++ leafPaths rest

/-- What a call shows of its leaf: the key and the value. -/
def Call.keyValue (c : Call) : Option GoString × GoValue :=
  (some c.environment, c.value)

/-- The fields of a record with a top-level field NestedValue and a nested
record Nested that has a field Value. -/
def collisionFields : GoFields :=
  .cons (goString "NestedValue") (.basic (goString "int") (goString "0"))
    (.cons (goString "Nested")
      (.ptr (.struct (goString "main.Nested")
        (.cons (goString "Value") (.basic (goString "int") (goString "0")) .nil)))
      .nil)

/-- The case tables agree with Go's unicode package on ASCII: the upper-case
code points below 128 are A to Z, the lower-case ones a to z, and ToUpper
maps a to z onto A to Z and fixes the rest. -/
def AsciiTables (U : CaseTables) : Prop :=
  ∀ r, r < 0x80 →
    U.IsUpper r = decide (0x41 ≤ r ∧ r ≤ 0x5A) ∧
    U.IsLower r = decide (0x61 ≤ r ∧ r ≤ 0x7A) ∧
    U.ToUpper r = if 0x61 ≤ r ∧ r ≤ 0x7A then r - 32 else r

/-- The code points that the loop of envFromName decodes from rest, one per
iteration, on the same fuel as envLoop. -/
def decodeRest : Nat → GoString → List Nat
  | fuel, rest =>
    if rest.length > 0 then
      match fuel with
      | 0 => []
      | fuel + 1 =>
        (DecodeRuneInString rest).1 :: decodeRest fuel (rest.drop (DecodeRuneInString rest).2)
    else []

/-- The code points that envFromName decodes from name: the one before the
loop, then those of the loop. -/
def decodedRunes (name : GoString) : List Nat :=
  (DecodeRuneInString name).1
    :: decodeRest name.length (name.drop (DecodeRuneInString name).2)

/-- The number of underscores that the specification inserts into the code
points cs that follow the code point last. -/
def underscoreCount (U : CaseTables) : Nat → List Nat → Nat
  | _, [] => 0
  | last, c :: cs =>
    (if U.IsUpper c && U.IsLower last then 1 else 0) + underscoreCount U c cs

/-- The number of underscores that the specification inserts into a
sequence of code points. -/
def underscoreTotal (U : CaseTables) : List Nat → Nat
  | [] => 0
  | c :: cs => underscoreCount U c cs

/-! ## UTF-8: decoding what was encoded -/

theorem AppendRune_eq_append (p : GoString) (r : Nat) : AppendRune p r = p ++ AppendRune [] r := by
  unfold AppendRune
  split_ifs <;> simp

theorem decode_encode_rune (r : Nat) (rest : GoString) (h : ValidRune r) :
    DecodeRuneInString (AppendRune [] r ++ rest) = (r, (AppendRune [] r).length) := by
  obtain ⟨hmax, hsur⟩ := h
  unfold MaxRune at hmax
  unfold AppendRune
  by_cases h1 : r ≤ 0x7F
  · have hf : first r = none := by unfold first; rw [if_pos (by omega)]
    simp [h1, DecodeRuneInString, hf]; omega
  · by_cases h2 : r ≤ 0x7FF
    · have hf : first (0xC0 + r / 64) = some (2, 0x80, 0xBF) := by
        unfold first; rw [if_neg (by omega), if_pos (by omega)]
      simp only [h1, h2, if_false, if_true, List.nil_append, List.cons_append, DecodeRuneInString, hf]
      simp only [List.length_cons, List.getD_cons_succ, List.getD_cons_zero]
      rw [if_neg (by omega), if_neg (by omega), if_pos (by omega)]
      simp; omega
    · have h3 : ¬ (MaxRune < r ∨ (0xD800 ≤ r ∧ r ≤ 0xDFFF)) := by unfold MaxRune; omega
      by_cases h4 : r ≤ 0xFFFF
      · have hf : ∃ lo hi, first (0xE0 + r / 4096) = some (3, lo, hi) ∧ ¬ (0x80 + (r / 64) % 64 < lo ∨ hi < 0x80 + (r / 64) % 64) := by
          unfold first
          by_cases a1 : r / 4096 = 0
          · refine ⟨0xA0, 0xBF, ?_, by omega⟩
            rw [if_neg (by omega), if_neg (by omega), if_pos (by omega)]
          · by_cases a2 : r / 4096 = 13
            · refine ⟨0x80, 0x9F, ?_, by omega⟩
              rw [if_neg (by omega), if_neg (by omega), if_neg (by omega), if_neg (by omega), if_pos (by omega)]
            · refine ⟨0x80, 0xBF, ?_, by omega⟩
              by_cases a3 : r / 4096 < 13
              · rw [if_neg (by omega), if_neg (by omega), if_neg (by omega), if_pos (by omega)]
              · rw [if_neg (by omega), if_neg (by omega), if_neg (by omega), if_neg (by omega), if_neg (by omega), if_pos (by omega)]
        obtain ⟨lo, hi, hf, hacc⟩ := hf
        simp only [h1, h2, h3, h4, if_false, if_true, List.nil_append, List.cons_append, DecodeRuneInString, hf]
        simp only [List.length_cons, List.getD_cons_succ, List.getD_cons_zero]
        rw [if_neg (by omega), if_neg hacc, if_neg (by omega), if_neg (by omega), if_pos (by omega)]
        simp; omega
      · have hf : ∃ lo hi, first (0xF0 + r / 262144) = some (4, lo, hi) ∧ ¬ (0x80 + (r / 4096) % 64 < lo ∨ hi < 0x80 + (r / 4096) % 64) := by
          unfold first
          by_cases a1 : r / 262144 = 0
          · refine ⟨0x90, 0xBF, ?_, by omega⟩
            rw [if_neg (by omega), if_neg (by omega), if_neg (by omega), if_neg (by omega), if_neg (by omega), if_neg (by omega), if_pos (by omega)]
          · by_cases a2 : r / 262144 = 4
            · refine ⟨0x80, 0x8F, ?_, by omega⟩
              rw [if_neg (by omega), if_neg (by omega), if_neg (by omega), if_neg (by omega), if_neg (by omega), if_neg (by omega), if_neg (by omega), if_neg (by omega), if_pos (by omega)]
            · refine ⟨0x80, 0xBF, ?_, by omega⟩
              rw [if_neg (by omega), if_neg (by omega), if_neg (by omega), if_neg (by omega), if_neg (by omega), if_neg (by omega), if_neg (by omega), if_pos (by omega)]
        obtain ⟨lo, hi, hf, hacc⟩ := hf
        simp only [h1, h2, h3, h4, if_false, if_true, List.nil_append, List.cons_append, DecodeRuneInString, hf]
        simp only [List.length_cons, List.getD_cons_succ, List.getD_cons_zero]
        rw [if_neg (by omega), if_neg hacc, if_neg (by omega), if_neg (by omega), if_neg (by omega), if_neg (by omega)]
        simp; omega

theorem utf8Encode_foldl (p : GoString) (rs : List Nat) :
    rs.foldl AppendRune p = p ++ utf8Encode rs := by
  induction rs generalizing p with
  | nil => simp [utf8Encode]
  | cons r rs ih =>
    simp only [utf8Encode, List.foldl_cons]
    rw [ih, ih (AppendRune [] r), AppendRune_eq_append p r, List.append_assoc]

theorem utf8Encode_cons (r : Nat) (rs : List Nat) :
    utf8Encode (r :: rs) = AppendRune [] r ++ utf8Encode rs := by
  simp only [utf8Encode, List.foldl_cons]
  exact utf8Encode_foldl _ rs

theorem utf8Encode_append (xs ys : List Nat) :
    utf8Encode (xs ++ ys) = utf8Encode xs ++ utf8Encode ys := by
  simp only [utf8Encode, List.foldl_append]
  exact utf8Encode_foldl _ ys

theorem AppendRune_length_pos (r : Nat) : 1 ≤ (AppendRune [] r).length := by
  unfold AppendRune
  split_ifs <;> simp

theorem decode_width_pos (s : GoString) (h : s ≠ []) : 1 ≤ (DecodeRuneInString s).2 := by
  cases s with
  | nil => exact absurd rfl h
  | cons s0 t =>
    simp only [DecodeRuneInString]
    cases first s0 with
    | none => split_ifs <;> simp
    | some x =>
      obtain ⟨sz, lo, hi⟩ := x
      dsimp only
      split_ifs <;> simp

theorem envLoop_total (U : CaseTables) (fuel : Nat) :
    ∀ (lastRune : Nat) (rest sb : GoString), rest.length ≤ fuel →
      ∃ out, envLoop U fuel lastRune rest sb = some out := by
  induction fuel with
  | zero =>
    intro lastRune rest sb h
    have : rest = [] := List.length_eq_zero.mp (by omega)
    subst this
    exact ⟨sb, by simp [envLoop]⟩
  | succ n ih =>
    intro lastRune rest sb h
    by_cases hr : rest = []
    · subst hr; exact ⟨sb, by simp [envLoop]⟩
    · have hpos : 0 < rest.length := List.length_pos.mpr hr
      have hw := decode_width_pos rest hr
      unfold envLoop
      simp only [gt_iff_lt, hpos, if_true]
      apply ih
      simp only [List.length_drop]
      omega

theorem envFromName_total (U : CaseTables) (name : GoString) :
    ∃ out, envFromName U name = some out := by
  unfold envFromName
  apply envLoop_total
  simp

theorem envLoop_encode (U : CaseTables) (rs : List Nat) :
    ∀ (fuel lastRune : Nat) (sb : GoString), (∀ r ∈ rs, ValidRune r) →
      (utf8Encode rs).length ≤ fuel →
      envLoop U fuel lastRune (utf8Encode rs) sb
        = some (sb ++ utf8Encode (snakeTail U lastRune rs)) := by
  induction rs with
  | nil =>
    intro fuel lastRune sb _ _
    cases fuel <;> simp [utf8Encode, envLoop, snakeTail]
  | cons r rs ih =>
    intro fuel lastRune sb hv hfuel
    have hr : ValidRune r := hv r (List.mem_cons_self _ _)
    have hrs : ∀ x ∈ rs, ValidRune x := fun x hx => hv x (List.mem_cons_of_mem _ hx)
    have hlen := AppendRune_length_pos r
    rw [utf8Encode_cons] at hfuel ⊢
    rw [List.length_append] at hfuel
    cases fuel with
    | zero => omega
    | succ n =>
      unfold envLoop
      have hpos : 0 < (AppendRune [] r ++ utf8Encode rs).length := by
        rw [List.length_append]; omega
      simp only [gt_iff_lt, hpos, if_true, decode_encode_rune r _ hr, List.drop_left]
      rw [ih n r _ hrs (by omega), AppendRune_eq_append]
      have h5F : utf8Encode [0x5F] = [0x5F] := by decide
      by_cases hc : (U.IsUpper r && U.IsLower lastRune) = true
      · simp only [hc, if_true, snakeTail]
        rw [show [0x5F, U.ToUpper r] = [0x5F] ++ [U.ToUpper r] from rfl, utf8Encode_append,
          utf8Encode_append, h5F, utf8Encode_cons]
        simp [utf8Encode]
      · have hc2 : (U.IsUpper r && U.IsLower lastRune) = false := by simpa using hc
        simp only [hc2, snakeTail, Bool.false_eq_true, if_false]
        rw [utf8Encode_append, utf8Encode_cons]
        simp [utf8Encode]

theorem envFromName_encode (U : CaseTables) (rs : List Nat) (hne : rs ≠ [])
    (hv : ∀ r ∈ rs, ValidRune r) :
    envFromName U (utf8Encode rs) = some (utf8Encode (upperSnake U rs)) := by
  cases rs with
  | nil => exact absurd rfl hne
  | cons r rs =>
    have hr : ValidRune r := hv r (List.mem_cons_self _ _)
    have hrs : ∀ x ∈ rs, ValidRune x := fun x hx => hv x (List.mem_cons_of_mem _ hx)
    unfold envFromName
    rw [utf8Encode_cons]
    simp only [decode_encode_rune r _ hr, List.drop_left]
    rw [envLoop_encode U rs _ r _ hrs (by simp), upperSnake, utf8Encode_cons]

theorem snakeTail_fixed (U : CaseTables) (rs : List Nat) :
    ∀ last, U.IsLower last = false → (∀ r ∈ rs, U.IsLower r = false ∧ U.ToUpper r = r) →
      snakeTail U last rs = rs := by
  induction rs with
  | nil => intro _ _ _; rfl
  | cons r rs ih =>
    intro last hl hfix
    have hr := hfix r (List.mem_cons_self _ _)
    have hrs : ∀ x ∈ rs, U.IsLower x = false ∧ U.ToUpper x = x :=
      fun x hx => hfix x (List.mem_cons_of_mem _ hx)
    simp only [snakeTail, hl, Bool.and_false, Bool.false_eq_true, if_false, hr.2,
      ih r hr.1 hrs, List.singleton_append]

/-! ## The name deriver: claims C1 and C2 -/

/-- C1: for every non-empty field name, given by its code points rs (Unicode
scalar values, the name being their UTF-8 encoding), envFromName returns the
encoding of upperSnake rs: the code points each upper-cased, in the original
order, with one underscore immediately before exactly those code points,
other than the first, that are upper-case and follow a lower-case code
point; nothing else is added, removed or reordered. -/
theorem envFromName_upper_snake (U : CaseTables) (rs : List Nat) (hne : rs ≠ [])
    (hv : ∀ r ∈ rs, ValidRune r) :
    envFromName U (utf8Encode rs) = some (utf8Encode (upperSnake U rs)) :=
  envFromName_encode U rs hne hv

/-- C1 at the field name BigIntPointer of load_test.go. -/
theorem envFromName_upper_snake_witness :
    codePoints "BigIntPointer" ≠ [] ∧ (∀ r ∈ codePoints "BigIntPointer", ValidRune r) ∧
    envFromName sampleTables (utf8Encode (codePoints "BigIntPointer"))
      = some (utf8Encode (upperSnake sampleTables (codePoints "BigIntPointer"))) :=
  ⟨by decide, by decide,
    envFromName_upper_snake sampleTables (codePoints "BigIntPointer") (by decide) (by decide)⟩

/-- C2: a non-empty field name with no lower-case code point, all of whose
code points are fixed by upper-casing, is returned unchanged by envFromName;
so it is for UINT8, UINT_8 and the name of the last field of Config. -/
theorem envFromName_fixed_names (U : CaseTables) (rs : List Nat) (hne : rs ≠ [])
    (hv : ∀ r ∈ rs, ValidRune r)
    (hfix : ∀ r ∈ rs, U.IsLower r = false ∧ U.ToUpper r = r) :
    envFromName U (utf8Encode rs) = some (utf8Encode rs) ∧
    envFromName sampleTables (goString "UINT8") = some (goString "UINT8") ∧
    envFromName sampleTables (goString "UINT_8") = some (goString "UINT_8") ∧
    envFromName sampleTables (goString "Ά本語") = some (goString "Ά本語") := by
  refine ⟨?_, by decide, by decide, by decide⟩
  rw [envFromName_encode U rs hne hv]
  cases rs with
  | nil => exact absurd rfl hne
  | cons r rs =>
    have hr := hfix r (List.mem_cons_self _ _)
    have hrs : ∀ x ∈ rs, U.IsLower x = false ∧ U.ToUpper x = x :=
      fun x hx => hfix x (List.mem_cons_of_mem _ hx)
    rw [upperSnake, hr.2, snakeTail_fixed U rs r hr.1 hrs]

/-- C2 at the name of the last field of Config, with its Greek capital and
its two ideographs. -/
theorem envFromName_fixed_names_witness :
    codePoints "Ά本語" ≠ [] ∧ (∀ r ∈ codePoints "Ά本語", ValidRune r) ∧
    (∀ r ∈ codePoints "Ά本語", sampleTables.IsLower r = false ∧ sampleTables.ToUpper r = r) ∧
    envFromName sampleTables (utf8Encode (codePoints "Ά本語"))
      = some (utf8Encode (codePoints "Ά本語")) :=
  ⟨by decide, by decide, by decide,
    (envFromName_fixed_names sampleTables (codePoints "Ά本語") (by decide) (by decide)
      (by decide)).1⟩

/-! ## Induction over records -/

theorem GoFields.induct {motive : GoFields → Prop} (hnil : motive .nil)
    (hcons : ∀ name value rest,
      (∀ typ fields, value = .ptr (.struct typ fields) → motive fields) →
      motive rest → motive (.cons name value rest)) :
    ∀ fs, motive fs := by
  intro fs
  refine @GoFields.rec
    (fun v => (∀ typ fields, v = .struct typ fields → motive fields) ∧
      (∀ typ fields, v = .ptr (.struct typ fields) → motive fields))
    motive ?_ ?_ ?_ ?_ hnil ?_ fs
  · intro typ data
    exact ⟨fun _ _ h => (by cases h), fun _ _ h => (by cases h)⟩
  · intro typ fields ih
    exact ⟨fun _ _ h => (by cases h; exact ih), fun _ _ h => (by cases h)⟩
  · intro elemTyp n
    exact ⟨fun _ _ h => (by cases h), fun _ _ h => (by cases h)⟩
  · intro target ih
    exact ⟨fun _ _ h => (by cases h), fun typ fields h => (by cases h; exact ih.1 typ fields rfl)⟩
  · intro name value rest ihv ihr
    exact hcons name value rest ihv.2 ihr

/-! ## The map of invalid keys -/

theorem mapLookup_mapSet_same (m : List (GoString × GoString)) (key val : GoString) :
    mapLookup (mapSet m key val) key = some val := by
  induction m with
  | nil => simp [mapSet, mapLookup]
  | cons e m ih =>
    obtain ⟨k, x⟩ := e
    by_cases h : k = key
    · simp [mapSet, mapLookup, h]
    · simp [mapSet, mapLookup, h, ih]

theorem mapLookup_mapSet_other (m : List (GoString × GoString)) (key val other : GoString)
    (hne : key ≠ other) : mapLookup (mapSet m key val) other = mapLookup m other := by
  induction m with
  | nil => simp [mapSet, mapLookup, hne]
  | cons e m ih =>
    obtain ⟨k, x⟩ := e
    by_cases h : k = key
    · subst h; simp [mapSet, mapLookup, hne]
    · by_cases h2 : k = other
      · subst h2; simp [mapSet, mapLookup, h]
      · simp [mapSet, mapLookup, h, h2, ih]

theorem mapSet_keys_of_some (m : List (GoString × GoString)) (key val x : GoString)
    (h : mapLookup m key = some x) : (mapSet m key val).map Prod.fst = m.map Prod.fst := by
  induction m with
  | nil => simp [mapLookup] at h
  | cons e m ih =>
    obtain ⟨k, y⟩ := e
    by_cases hk : k = key
    · simp [mapSet, hk]
    · simp only [mapLookup, hk, if_false] at h
      simp [mapSet, hk, ih h]

theorem mapSet_keys_of_none (m : List (GoString × GoString)) (key val : GoString)
    (h : mapLookup m key = none) :
    (mapSet m key val).map Prod.fst = m.map Prod.fst ++ [key] := by
  induction m with
  | nil => simp [mapSet]
  | cons e m ih =>
    obtain ⟨k, y⟩ := e
    by_cases hk : k = key
    · simp [mapLookup, hk] at h
    · simp only [mapLookup, hk, if_false] at h
      simp [mapSet, hk, ih h]

/-! ## Merging errors -/

theorem appendError_lookup (err : GoError) (key msg : GoString) (hf : err.isForeign = false) :
    ∃ p, appendError err key msg = .ok (.traversal p) ∧
      mapLookup p.invalidKeys key
        = some (match err.lookup key with
          | some existing => existing ++ goString ": " ++ msg
          | none => msg) ∧
      ∀ other, key ≠ other → mapLookup p.invalidKeys other = err.lookup other := by
  cases err with
  | nil =>
    refine ⟨_, rfl, ?_, ?_⟩
    · simp [mapLookup, GoError.lookup]
    · intro other hne
      simp [mapLookup, GoError.lookup, hne]
  | foreign m => simp [GoError.isForeign] at hf
  | traversal casted =>
    cases hl : mapLookup casted.invalidKeys key with
    | none =>
      refine ⟨{ casted with invalidKeys := mapSet casted.invalidKeys key msg },
        by simp only [appendError, hl], ?_, ?_⟩
      · simp [GoError.lookup, hl, mapLookup_mapSet_same]
      · intro other hne
        simp [GoError.lookup, mapLookup_mapSet_other _ _ _ _ hne]
    | some existing =>
      refine ⟨{ casted with
          invalidKeys := mapSet casted.invalidKeys key (existing ++ goString ": " ++ msg) },
        by simp only [appendError, hl], ?_, ?_⟩
      · simp [GoError.lookup, hl, mapLookup_mapSet_same]
      · intro other hne
        simp [GoError.lookup, mapLookup_mapSet_other _ _ _ _ hne]

theorem appendError_ok_traversal (err : GoError) (key msg : GoString) (e : GoError)
    (h : appendError err key msg = .ok e) : ∃ p, e = .traversal p := by
  cases err with
  | nil => simp only [appendError, Except.ok.injEq] at h; exact ⟨_, h.symm⟩
  | foreign m => simp [appendError] at h
  | traversal casted =>
    simp only [appendError] at h
    split at h <;> (simp only [Except.ok.injEq] at h; exact ⟨_, h.symm⟩)

theorem appendAll_append (es1 es2 : List visitError) :
    ∀ (err e1 : GoError), appendAll err es1 = .ok e1 →
      appendAll err (es1 ++ es2) = appendAll e1 es2 := by
  induction es1 with
  | nil =>
    intro err e1 h
    simp only [appendAll, Except.ok.injEq] at h
    simp [h]
  | cons x es1 ih =>
    intro err e1 h
    simp only [appendAll, List.cons_append] at h ⊢
    cases hx : appendError err x.Key x.error with
    | error a => simp [hx] at h
    | ok err1 =>
      simp only [hx] at h ⊢
      exact ih err1 e1 h

theorem appendAll_notForeign (es : List visitError) :
    ∀ (err e : GoError), appendAll err es = .ok e → err.isForeign = false →
      e.isForeign = false := by
  induction es with
  | nil =>
    intro err e h hf
    simp only [appendAll, Except.ok.injEq] at h
    rw [← h]; exact hf
  | cons x es ih =>
    intro err e h hf
    simp only [appendAll] at h
    cases hx : appendError err x.Key x.error with
    | error a => simp [hx] at h
    | ok err1 =>
      simp only [hx] at h
      obtain ⟨p, hp⟩ := appendError_ok_traversal _ _ _ _ hx
      exact ih err1 e h (by rw [hp]; rfl)

theorem appendAll_total (es : List visitError) :
    ∀ (err : GoError), err.isForeign = false → ∃ e, appendAll err es = .ok e := by
  induction es with
  | nil => intro err _; exact ⟨err, rfl⟩
  | cons x es ih =>
    intro err hf
    obtain ⟨p, hp, _⟩ := appendError_lookup err x.Key x.error hf
    simp only [appendAll, hp]
    exact ih _ rfl

theorem appendAll_nil_iff (es : List visitError) (err e : GoError)
    (h : appendAll err es = .ok e) : e = .nil ↔ err = .nil ∧ es = [] := by
  cases es with
  | nil =>
    simp only [appendAll, Except.ok.injEq] at h
    simp [h]
  | cons x es =>
    simp only [appendAll] at h
    cases hx : appendError err x.Key x.error with
    | error a => simp [hx] at h
    | ok err1 =>
      simp only [hx] at h
      obtain ⟨p, hp⟩ := appendError_ok_traversal _ _ _ _ hx
      have hf := appendAll_notForeign es err1 e h (by rw [hp]; rfl)
      constructor
      · intro he
        subst he
        subst hp
        exfalso
        clear hx hf
        induction es generalizing p with
        | nil => simp [appendAll] at h
        | cons y es ih =>
          simp only [appendAll] at h
          cases hy : appendError (.traversal p) y.Key y.error with
          | error a => simp [hy] at h
          | ok err2 =>
            simp only [hy] at h
            obtain ⟨q, hq⟩ := appendError_ok_traversal _ _ _ _ hy
            subst hq
            exact ih q h
      · intro hc
        exact absurd hc.2 (by simp)

theorem joinOnto_cons (existing m : GoString) (msgs : List GoString) :
    joinOnto existing (m :: msgs) = joinOnto (existing ++ goString ": " ++ m) msgs := rfl

theorem appendAll_lookup (es : List visitError) :
    ∀ (err e : GoError), err.isForeign = false → appendAll err es = .ok e →
      ∀ key, e.lookup key
        = match err.lookup key with
          | some existing =>
            some (joinOnto existing ((es.filter (fun x => x.Key = key)).map (fun x => x.error)))
          | none => joinErrors ((es.filter (fun x => x.Key = key)).map (fun x => x.error)) := by
  induction es with
  | nil =>
    intro err e _ h key
    simp only [appendAll, Except.ok.injEq] at h
    subst h
    cases err.lookup key <;> simp [joinOnto, joinErrors]
  | cons x es ih =>
    intro err e hf h key
    obtain ⟨p, hp, hsame, hother⟩ := appendError_lookup err x.Key x.error hf
    simp only [appendAll, hp] at h
    rw [ih (.traversal p) e rfl h key]
    have hp1 : ∀ k, (GoError.traversal p).lookup k = mapLookup p.invalidKeys k := fun _ => rfl
    by_cases hk : x.Key = key
    · subst hk
      rw [hp1, hsame]
      cases hL : err.lookup x.Key with
      | none => simp [joinErrors]
      | some existing => simp [joinOnto_cons]
    · rw [hp1, hother key hk]
      cases hL : err.lookup key with
      | none => simp [hk]
      | some existing => simp [hk]

theorem doVisitFields_cons_leaf {σ : Type} (U : CaseTables) (v : visitor σ)
    (P name segment : GoString) (value : GoValue) (rest : GoFields) (errs : GoError)
    (tr : Trace σ) (hseg : envFromName U name = some segment)
    (hn : value.isNested = false) :
    doVisitFields U v P (.cons name value rest) errs tr
      = match (v (P ++ goString "_" ++ segment) value tr.state).1 with
        | none =>
          doVisitFields U v P rest errs (afterCall v (P ++ goString "_" ++ segment) value tr)
        | some e =>
          match appendError errs e.Key e.error with
          | .ok errs1 =>
            doVisitFields U v P rest errs1 (afterCall v (P ++ goString "_" ++ segment) value tr)
          | .error a => (afterCall v (P ++ goString "_" ++ segment) value tr, .error a) := by
  have hc : (value.isPtr && !(terminalTypes.contains value.typeString)) = false := hn
  rw [doVisitFields]
  simp only [hseg, hc, Bool.false_eq_true, if_false, afterCall]

theorem doVisitFields_cons_nested {σ : Type} (U : CaseTables) (v : visitor σ)
    (P name segment : GoString) (value : GoValue) (rest : GoFields) (errs : GoError)
    (tr : Trace σ) (hseg : envFromName U name = some segment)
    (hn : value.isNested = true) :
    doVisitFields U v P (.cons name value rest) errs tr
      = match doVisit U v (P ++ goString "_" ++ segment) value errs tr with
        | (tr1, .ok errs1) => doVisitFields U v P rest errs1 tr1
        | (tr1, .error e) => (tr1, .error e) := by
  have hc : (value.isPtr && !(terminalTypes.contains value.typeString)) = true := hn
  rw [doVisitFields]
  simp only [hseg, hc, if_true]

theorem envKey_cons (U : CaseTables) (P name segment : GoString) (path : List GoString)
    (hseg : envFromName U name = some segment) :
    envKey U P (name :: path) = envKey U (P ++ goString "_" ++ segment) path := by
  simp only [envKey, hseg]

theorem LeafAt_path_ne_nil (fs : GoFields) (path : List GoString) (leaf : GoValue)
    (h : LeafAt fs path leaf) : path ≠ [] := by
  induction h with
  | atField _ _ _ _ => simp
  | inNested _ _ _ _ _ _ _ _ _ => simp
  | inRest _ _ _ _ _ _ ih => exact ih

theorem failuresOf_append (xs ys : List Call) :
    failuresOf (xs ++ ys) = failuresOf xs ++ failuresOf ys := by
  simp [failuresOf, List.filterMap_append]

theorem allocated_cons (name : GoString) (value : GoValue) (rest : GoFields)
    (h : (GoFields.cons name value rest).allocated = true) :
    rest.allocated = true ∧
    (value.isNested = true →
      ∃ typ fields, value = .ptr (.struct typ fields) ∧ fields.allocated = true) := by
  cases value with
  | basic typ data =>
    simp only [GoFields.allocated, Bool.and_eq_true, Bool.not_eq_true'] at h
    exact ⟨h.2, fun hn => by rw [h.1] at hn; cases hn⟩
  | struct typ fields =>
    simp only [GoFields.allocated, Bool.and_eq_true, Bool.not_eq_true'] at h
    exact ⟨h.2, fun hn => by rw [h.1] at hn; cases hn⟩
  | nilPtr elemTyp n =>
    simp only [GoFields.allocated, Bool.and_eq_true, Bool.not_eq_true'] at h
    exact ⟨h.2, fun hn => by rw [h.1] at hn; cases hn⟩
  | ptr target =>
    cases target with
    | struct typ fields =>
      simp only [GoFields.allocated, Bool.and_eq_true, Bool.or_eq_true, Bool.not_eq_true'] at h
      refine ⟨h.2, fun hn => ⟨typ, fields, rfl, ?_⟩⟩
      rcases h.1 with h1 | h1
      · rw [h1] at hn; cases hn
      · exact h1
    | basic typ data =>
      simp only [GoFields.allocated, Bool.and_eq_true, Bool.not_eq_true'] at h
      exact ⟨h.2, fun hn => by rw [h.1] at hn; cases hn⟩
    | nilPtr elemTyp n =>
      simp only [GoFields.allocated, Bool.and_eq_true, Bool.not_eq_true'] at h
      exact ⟨h.2, fun hn => by rw [h.1] at hn; cases hn⟩
    | ptr target =>
      simp only [GoFields.allocated, Bool.and_eq_true, Bool.not_eq_true'] at h
      exact ⟨h.2, fun hn => by rw [h.1] at hn; cases hn⟩

theorem LeafAt_cons (name : GoString) (value : GoValue) (rest : GoFields)
    (path : List GoString) (leaf : GoValue)
    (h : LeafAt (.cons name value rest) path leaf) :
    LeafAtHead name value path leaf ∨ LeafAt rest path leaf := by
  cases h with
  | atField _ _ _ hn => exact Or.inl (Or.inl ⟨hn, rfl, rfl⟩)
  | inNested _ typ fields _ p _ hn hl => exact Or.inl (Or.inr ⟨typ, fields, p, rfl, hn, rfl, hl⟩)
  | inRest _ _ _ _ _ hl => exact Or.inr hl

theorem RunFacts_cons {σ : Type} (U : CaseTables) (v : visitor σ) (P name : GoString)
    (value : GoValue) (rest : GoFields) (errs : GoError) (tr tr1 : Trace σ)
    (r1 : Except Abort GoError) (new1 : List Call)
    (hcalls : tr1.calls = tr.calls ++ new1)
    (hsound : ∀ c ∈ new1, ∃ path, LeafAt (.cons name value rest) path c.value ∧
      envKey U P path = some c.environment)
    (hok : ∀ e1, r1 = .ok e1 →
      appendAll errs (failuresOf new1) = .ok e1 ∧
      ∀ path leaf, LeafAtHead name value path leaf →
        ∃ c ∈ new1, c.value = leaf ∧ envKey U P path = some c.environment)
    (halloc : (GoFields.cons name value rest).allocated = true → errs.isForeign = false →
      ∃ e1, r1 = .ok e1)
    (ihr : ∀ (errs : GoError) (tr : Trace σ),
      RunFacts U P rest errs tr (doVisitFields U v P rest errs tr)) :
    RunFacts U P (.cons name value rest) errs tr (thenFields U v P rest tr1 r1) := by
  unfold thenFields
  cases r1 with
  | error a =>
    refine ⟨new1, hcalls, hsound, ?_, ?_⟩
    · intro e he; cases he
    · intro ha hf
      obtain ⟨e1, he1⟩ := halloc ha hf
      cases he1
  | ok errs1 =>
    obtain ⟨happ, hcomplete⟩ := hok errs1 rfl
    obtain ⟨new2, hc2, hs2, hok2, hal2⟩ := ihr errs1 tr1
    refine ⟨new1 ++ new2, ?_, ?_, ?_, ?_⟩
    · show (doVisitFields U v P rest errs1 tr1).1.calls = _
      rw [hc2, hcalls, List.append_assoc]
    · intro c hc
      rcases List.mem_append.mp hc with h | h
      · exact hsound c h
      · obtain ⟨path, hl, hk⟩ := hs2 c h
        exact ⟨path, LeafAt.inRest _ _ _ _ _ hl, hk⟩
    · intro e he
      obtain ⟨happ2, hcomplete2⟩ := hok2 e he
      refine ⟨?_, ?_⟩
      · rw [failuresOf_append, appendAll_append _ _ _ _ happ, happ2]
      · intro path leaf hl
        rcases LeafAt_cons _ _ _ _ _ hl with h | h
        · obtain ⟨c, hc, hv, hk⟩ := hcomplete path leaf h
          exact ⟨c, List.mem_append.mpr (Or.inl hc), hv, hk⟩
        · obtain ⟨c, hc, hv, hk⟩ := hcomplete2 path leaf h
          exact ⟨c, List.mem_append.mpr (Or.inr hc), hv, hk⟩
    · intro ha hf
      exact hal2 (allocated_cons _ _ _ ha).1 (appendAll_notForeign _ _ _ happ hf)

theorem doVisit_not_record {σ : Type} (U : CaseTables) (v : visitor σ) (P : GoString)
    (value : GoValue) (errs : GoError) (tr : Trace σ)
    (h : ∀ typ fields, value ≠ .ptr (.struct typ fields)) :
    (doVisit U v P value errs tr).1 = tr ∧
    ∀ e, (doVisit U v P value errs tr).2 = .ok e → e = errs := by
  cases value with
  | basic typ data => exact ⟨by simp [doVisit], fun e he => by simp [doVisit] at he⟩
  | struct typ fields => exact ⟨by simp [doVisit], fun e he => by simp [doVisit] at he⟩
  | nilPtr elemTyp n =>
    cases n with
    | none => exact ⟨by simp [doVisit], fun e he => by simp [doVisit] at he⟩
    | some k =>
      cases k with
      | zero => exact ⟨by simp [doVisit], fun e he => by simp [doVisit] at he; exact he.symm⟩
      | succ k => exact ⟨by simp [doVisit], fun e he => by simp [doVisit] at he⟩
  | ptr target =>
    cases target with
    | struct typ fields => exact absurd rfl (h typ fields)
    | basic typ data => exact ⟨by simp [doVisit], fun e he => by simp [doVisit] at he⟩
    | nilPtr elemTyp n => exact ⟨by simp [doVisit], fun e he => by simp [doVisit] at he⟩
    | ptr target => exact ⟨by simp [doVisit], fun e he => by simp [doVisit] at he⟩

theorem doVisitFields_facts {σ : Type} (U : CaseTables) (v : visitor σ) (fs : GoFields) :
    ∀ (P : GoString) (errs : GoError) (tr : Trace σ),
      RunFacts U P fs errs tr (doVisitFields U v P fs errs tr) := by
  induction fs using GoFields.induct with
  | hnil =>
    intro P errs tr
    refine ⟨[], by simp [doVisitFields], by simp, ?_, ?_⟩
    · intro e he
      simp only [doVisitFields, Except.ok.injEq] at he
      refine ⟨by simp [failuresOf, appendAll, he], ?_⟩
      intro path leaf hl
      cases hl
    · intro _ _
      exact ⟨errs, by simp [doVisitFields]⟩
  | hcons name value rest ihv ihr =>
    intro P errs tr
    obtain ⟨segment, hseg⟩ := envFromName_total U name
    have hkey1 : envKey U P [name] = some (P ++ goString "_" ++ segment) := by
      rw [envKey_cons U P name segment [] hseg]; rfl
    cases hn : value.isNested with
    | false =>
      have heq : doVisitFields U v P (.cons name value rest) errs tr
          = thenFields U v P rest (afterCall v (P ++ goString "_" ++ segment) value tr)
              (match (v (P ++ goString "_" ++ segment) value tr.state).1 with
                | none => Except.ok errs
                | some e => appendError errs e.Key e.error) := by
        rw [doVisitFields_cons_leaf U v P name segment value rest errs tr hseg hn]
        unfold thenFields
        cases (v (P ++ goString "_" ++ segment) value tr.state).1 with
        | none => rfl
        | some e => cases appendError errs e.Key e.error <;> rfl
      rw [heq]
      refine RunFacts_cons U v P name value rest errs tr
        (afterCall v (P ++ goString "_" ++ segment) value tr)
        (match (v (P ++ goString "_" ++ segment) value tr.state).1 with
          | none => Except.ok errs
          | some e => appendError errs e.Key e.error)
        [⟨P ++ goString "_" ++ segment, value, (v (P ++ goString "_" ++ segment) value tr.state).1⟩]
        rfl ?_ ?_ ?_ (ihr P)
      · intro c hc
        rw [List.mem_singleton] at hc
        subst hc
        exact ⟨[name], LeafAt.atField _ _ _ hn, hkey1⟩
      · intro e1 he1
        refine ⟨?_, ?_⟩
        · cases hres : (v (P ++ goString "_" ++ segment) value tr.state).1 with
          | none =>
            rw [hres] at he1
            simp only [Except.ok.injEq] at he1
            simp [failuresOf, hres, appendAll, he1]
          | some e =>
            rw [hres] at he1
            have he2 : appendError errs e.Key e.error = Except.ok e1 := he1
            simp only [failuresOf, List.filterMap_cons, hres, List.filterMap_nil, appendAll, he2]
        · intro path leaf hl
          rcases hl with ⟨_, hp, hv⟩ | ⟨typ, fields, p, _, hn2, _, _⟩
          · subst hp; subst hv
            exact ⟨_, List.mem_singleton.mpr rfl, rfl, hkey1⟩
          · rw [hn] at hn2; cases hn2
      · intro _ hf
        cases hres : (v (P ++ goString "_" ++ segment) value tr.state).1 with
        | none => exact ⟨errs, rfl⟩
        | some e =>
          obtain ⟨p, hp, _⟩ := appendError_lookup errs e.Key e.error hf
          exact ⟨_, hp⟩
    | true =>
      have heq : doVisitFields U v P (.cons name value rest) errs tr
          = thenFields U v P rest (doVisit U v (P ++ goString "_" ++ segment) value errs tr).1
              (doVisit U v (P ++ goString "_" ++ segment) value errs tr).2 := by
        rw [doVisitFields_cons_nested U v P name segment value rest errs tr hseg hn]
        unfold thenFields
        rcases doVisit U v (P ++ goString "_" ++ segment) value errs tr with ⟨t1, r1⟩
        cases r1 <;> rfl
      rw [heq]
      by_cases hrec : ∃ typ fields, value = .ptr (.struct typ fields)
      · obtain ⟨typ, fields, hval⟩ := hrec
        obtain ⟨new1, hc1, hs1, hok1, hal1⟩ :=
          ihv typ fields hval (P ++ goString "_" ++ segment) errs tr
        have hdv : doVisit U v (P ++ goString "_" ++ segment) value errs tr
            = doVisitFields U v (P ++ goString "_" ++ segment) fields errs tr := by
          rw [hval, doVisit]
        rw [hdv]
        refine RunFacts_cons U v P name value rest errs tr _ _ new1 hc1 ?_ ?_ ?_ (ihr P)
        · intro c hc
          obtain ⟨path, hl, hk⟩ := hs1 c hc
          refine ⟨name :: path, ?_, ?_⟩
          · rw [hval]
            exact LeafAt.inNested _ _ _ _ _ _ (by rw [← hval]; exact hn) hl
          · rw [envKey_cons U P name segment path hseg]; exact hk
        · intro e1 he1
          obtain ⟨happ, hcomplete⟩ := hok1 e1 he1
          refine ⟨happ, ?_⟩
          intro path leaf hl
          rcases hl with ⟨hn2, _, _⟩ | ⟨typ2, fields2, p, hv2, _, hp, hl2⟩
          · rw [hn] at hn2; cases hn2
          · rw [hval] at hv2
            cases hv2
            subst hp
            obtain ⟨c, hc, hv, hk⟩ := hcomplete p leaf hl2
            exact ⟨c, hc, hv, by rw [envKey_cons U P name segment p hseg]; exact hk⟩
        · intro ha hf
          obtain ⟨typ2, fields2, hv2, hfa⟩ := (allocated_cons _ _ _ ha).2 hn
          rw [hval] at hv2
          cases hv2
          exact hal1 hfa hf
      · have hne : ∀ typ fields, value ≠ .ptr (.struct typ fields) :=
          fun typ fields h => hrec ⟨typ, fields, h⟩
        obtain ⟨htr, herr⟩ := doVisit_not_record U v (P ++ goString "_" ++ segment) value errs tr hne
        refine RunFacts_cons U v P name value rest errs tr
          (doVisit U v (P ++ goString "_" ++ segment) value errs tr).1
          (doVisit U v (P ++ goString "_" ++ segment) value errs tr).2
          [] (by rw [htr]; simp) ?_ ?_ ?_ (ihr P)
        · intro c hc; cases hc
        · intro e1 he1
          refine ⟨by simp [failuresOf, appendAll, herr e1 he1], ?_⟩
          intro path leaf hl
          rcases hl with ⟨hn2, _, _⟩ | ⟨typ2, fields2, p, hv2, _, _, _⟩
          · rw [hn] at hn2; cases hn2
          · exact absurd hv2 (hne typ2 fields2)
        · intro ha _
          obtain ⟨typ2, fields2, hv2, _⟩ := (allocated_cons _ _ _ ha).2 hn
          exact absurd hv2 (hne typ2 fields2)

/-! ## The traversal: claims C3 to C7 -/

/-- C3: for every record (a pointer to a struct with the given fields),
prefix P, visitor and starting error, every call that doVisit makes is for
a leaf field at some nesting path n1, ..., nk (k at least 1) and has the
key P, then for each name of the path an underscore and envFromName of the
name; and when doVisit returns, every leaf field at a nesting path was
called with that key.  With an empty P the path Nested, BigIntPointer
gives the key of the tests. -/
theorem doVisit_leaf_keys {σ : Type} (U : CaseTables) (v : visitor σ) (P typ : GoString)
    (fields : GoFields) (errs : GoError) (state : σ) :
    (∀ c ∈ (doVisit U v P (.ptr (.struct typ fields)) errs ⟨state, []⟩).1.calls,
      ∃ path, path ≠ [] ∧ LeafAt fields path c.value ∧
        envKey U P path = some c.environment) ∧
    (∀ e path leaf,
      (doVisit U v P (.ptr (.struct typ fields)) errs ⟨state, []⟩).2 = .ok e →
      LeafAt fields path leaf →
      ∃ c ∈ (doVisit U v P (.ptr (.struct typ fields)) errs ⟨state, []⟩).1.calls,
        c.value = leaf ∧ envKey U P path = some c.environment) ∧
    envKey sampleTables [] [goString "Nested", goString "BigIntPointer"]
      = some (goString "_NESTED_BIG_INT_POINTER") := by
  obtain ⟨new, hc, hs, hok, _⟩ := doVisitFields_facts U v fields P errs ⟨state, []⟩
  have hdv : doVisit U v P (.ptr (.struct typ fields)) errs ⟨state, []⟩
      = doVisitFields U v P fields errs ⟨state, []⟩ := by rw [doVisit]
  rw [hdv]
  simp only [List.nil_append] at hc
  refine ⟨?_, ?_, by decide⟩
  · intro c hmem
    rw [hc] at hmem
    obtain ⟨path, hl, hk⟩ := hs c hmem
    exact ⟨path, LeafAt_path_ne_nil _ _ _ hl, hl, hk⟩
  · intro e path leaf he hl
    rw [hc]
    exact (hok e he).2 path leaf hl

/-- C3 at the record of the tests: the leaf BigIntPointer of the nested
record is called with the key _NESTED_BIG_INT_POINTER. -/
theorem doVisit_leaf_keys_witness :
    ∃ c ∈ (doVisit sampleTables acceptAll [] (testConfig (.ptr testNested)) .nil
        ⟨(), []⟩).1.calls,
      c.value = .nilPtr (goString "big.Int") (some 2) ∧
      c.environment = goString "_NESTED_BIG_INT_POINTER" := by
  obtain ⟨c, hc, hv, hk⟩ :=
    (doVisit_leaf_keys sampleTables acceptAll [] (goString "configs_test.Config")
      (testConfigFields (.ptr testNested)) .nil ()).2.1
      .nil [goString "Nested", goString "BigIntPointer"] (.nilPtr (goString "big.Int") (some 2))
      (by decide)
      (by
        unfold testConfigFields
        iterate 10 apply LeafAt.inRest
        apply LeafAt.inNested _ _ _ _ _ _ (by decide)
        apply LeafAt.inRest
        exact LeafAt.atField _ _ _ (by decide))
  refine ⟨c, hc, hv, ?_⟩
  have h2 : envKey sampleTables [] [goString "Nested", goString "BigIntPointer"]
      = some (goString "_NESTED_BIG_INT_POINTER") := by decide
  rw [h2] at hk
  exact (Option.some.inj hk).symm

/-- C4 fails as stated: on the Config of the tests with the field Nested
left nil, visit panics inside reflect at the first field of Nested; the
visitor was called for the ten fields before Nested, and the two fields
after it, SomePassword and the last one, are never visited. -/
theorem nil_nested_pointer_panics :
    (visit sampleTables (testConfig nilNested) acceptAll ()).2
      = .error (.panic "reflect: call of reflect.Value.Field on zero Value") ∧
    (visit sampleTables (testConfig nilNested) acceptAll ()).1.calls.map Call.environment
      = [goString "_BOOLEAN", goString "_INT", goString "_UINT_8", goString "_UINT_16",
         goString "_UINT_32", goString "_UINT_64", goString "_BIG_INT", goString "_STRING",
         goString "_INT_SLICE", goString "_STRING_SLICE"] := by
  decide

/-- C4 as amended: for a field that doVisit treats as a nested record and
whose pointer is nil, the pointed-to struct type having n fields, doVisit
calls the visitor for nothing below it and adds no error for it; when n is
0 it goes on to the remaining fields of the parent with the same errors and
the same trace, and when n is positive it panics at that field and the
remaining fields of the parent are not visited. -/
theorem doVisitFields_nil_nested {σ : Type} (U : CaseTables) (v : visitor σ)
    (P name elemTyp : GoString) (n : Nat) (rest : GoFields) (errs : GoError) (tr : Trace σ)
    (hn : (GoValue.nilPtr elemTyp (some n)).isNested = true) :
    doVisitFields U v P (.cons name (.nilPtr elemTyp (some n)) rest) errs tr
      = if n = 0 then doVisitFields U v P rest errs tr
        else (tr, .error (.panic "reflect: call of reflect.Value.Field on zero Value")) := by
  obtain ⟨segment, hseg⟩ := envFromName_total U name
  rw [doVisitFields_cons_nested U v P name segment _ rest errs tr hseg hn]
  cases n with
  | zero => simp [doVisit]
  | succ k => simp [doVisit]

/-- C4 as amended, at a record whose nil pointer is to a struct type with
two fields and at one whose nil pointer is to a field-less struct type. -/
theorem doVisitFields_nil_nested_witness :
    nilNested.isNested = true ∧
    doVisitFields sampleTables acceptAll []
        (.cons (goString "Nested") (.nilPtr (goString "configs_test.Nested") (some 2))
          (.cons (goString "After") (.basic (goString "int") []) .nil))
        .nil ⟨(), []⟩
      = (if 2 = 0 then
          doVisitFields sampleTables acceptAll []
            (.cons (goString "After") (.basic (goString "int") []) .nil) .nil ⟨(), []⟩
        else (⟨(), []⟩, .error (.panic "reflect: call of reflect.Value.Field on zero Value"))) :=
  ⟨by decide,
    doVisitFields_nil_nested sampleTables acceptAll [] (goString "Nested")
      (goString "configs_test.Nested") 2 _ .nil ⟨(), []⟩ (by decide)⟩

/-- C5: the code breaks the claim at a field Count of type *int.  The
claim, like the doc comment of visit, makes a pointer to a non-record type a
leaf that is handed to the visitor; doVisit recurses into it instead and
reflect panics, no call having been made. -/
theorem pointer_to_int_not_a_leaf :
    (GoValue.ptr (.basic (goString "int") (goString "5"))).typeString = goString "*int" ∧
    (visit sampleTables (.ptr (.struct (goString "main.Counter") counterFields))
      acceptAll ()).1.calls = [] ∧
    (visit sampleTables (.ptr (.struct (goString "main.Counter") counterFields))
      acceptAll ()).2 = .error (.panic "reflect: NumField of non-struct type") := by
  decide

/-- What the switch of doVisit does with a field.  It recurses into the
field if and only if the kind of its declared type is Ptr and the String()
of that type is not a key of terminalTypes, whether or not the pointed-to
type is a record.  Every other field, so every field that is not a pointer
(a by-value big.Int included) and a *big.Int, is handed to the visitor as
the next call, under the key P, underscore, envFromName of its name.  The
decision reads the kind and the name of the declared type only. -/
theorem doVisitFields_classification {σ : Type} (U : CaseTables) (v : visitor σ)
    (P name : GoString) (value : GoValue) (rest : GoFields) (errs : GoError) (tr : Trace σ) :
    ∃ segment, envFromName U name = some segment ∧
      ((value.isPtr = true ∧ value.typeString ∉ terminalTypes) →
        doVisitFields U v P (.cons name value rest) errs tr
          = thenFields U v P rest
              (doVisit U v (P ++ goString "_" ++ segment) value errs tr).1
              (doVisit U v (P ++ goString "_" ++ segment) value errs tr).2) ∧
      (¬ (value.isPtr = true ∧ value.typeString ∉ terminalTypes) →
        ∃ more, (doVisitFields U v P (.cons name value rest) errs tr).1.calls
          = tr.calls ++
              ⟨P ++ goString "_" ++ segment, value,
                (v (P ++ goString "_" ++ segment) value tr.state).1⟩ :: more) ∧
      (∀ other : GoValue, other.isPtr = value.isPtr → other.typeString = value.typeString →
        other.isNested = value.isNested) ∧
      bigIntValue.isNested = false ∧ (GoValue.ptr bigIntValue).isNested = false ∧
      (GoValue.nilPtr (goString "big.Int") (some 2)).isNested = false := by
  obtain ⟨segment, hseg⟩ := envFromName_total U name
  have hiff : value.isNested = true ↔ (value.isPtr = true ∧ value.typeString ∉ terminalTypes) := by
    simp [GoValue.isNested]
  refine ⟨segment, hseg, ?_, ?_, ?_, by decide, by decide, by decide⟩
  · intro h
    rw [doVisitFields_cons_nested U v P name segment value rest errs tr hseg (hiff.mpr h)]
    unfold thenFields
    rcases doVisit U v (P ++ goString "_" ++ segment) value errs tr with ⟨t1, r1⟩
    cases r1 <;> rfl
  · intro h
    have hn : value.isNested = false := by
      cases hv : value.isNested with
      | false => rfl
      | true => exact absurd (hiff.mp hv) h
    rw [doVisitFields_cons_leaf U v P name segment value rest errs tr hseg hn]
    generalize P ++ goString "_" ++ segment = env
    cases hres : (v env value tr.state).1 with
    | none =>
      obtain ⟨new, hc, _⟩ := doVisitFields_facts U v rest P errs (afterCall v env value tr)
      refine ⟨new, ?_⟩
      show (doVisitFields U v P rest errs (afterCall v env value tr)).1.calls = _
      rw [hc]
      simp only [afterCall, hres, List.append_assoc, List.singleton_append]
    | some e =>
      dsimp only
      cases happ : appendError errs e.Key e.error with
      | error a =>
        refine ⟨[], ?_⟩
        show (afterCall v env value tr).calls = _
        simp only [afterCall, hres]
      | ok errs1 =>
        obtain ⟨new, hc, _⟩ := doVisitFields_facts U v rest P errs1 (afterCall v env value tr)
        refine ⟨new, ?_⟩
        show (doVisitFields U v P rest errs1 (afterCall v env value tr)).1.calls = _
        rw [hc]
        simp only [afterCall, hres, List.append_assoc, List.singleton_append]
  · intro other h1 h2
    simp [GoValue.isNested, h1, h2]

/-- The switch of doVisit at the field Nested of the tests, which is
recursed into, and at the field Boolean, which is handed to the visitor. -/
theorem doVisitFields_classification_witness :
    ((GoValue.ptr testNested).isPtr = true ∧
      (GoValue.ptr testNested).typeString ∉ terminalTypes) ∧
    ¬ ((GoValue.basic (goString "bool") (goString "false")).isPtr = true ∧
      (GoValue.basic (goString "bool") (goString "false")).typeString ∉ terminalTypes) ∧
    ∃ segment, envFromName sampleTables (goString "Boolean") = some segment ∧
      ∃ more, (doVisitFields sampleTables acceptAll [] (.cons (goString "Boolean")
          (.basic (goString "bool") (goString "false")) .nil) .nil ⟨(), []⟩).1.calls
        = [] ++ ⟨[] ++ goString "_" ++ segment, .basic (goString "bool") (goString "false"),
            (acceptAll ([] ++ goString "_" ++ segment)
              (.basic (goString "bool") (goString "false")) ()).1⟩ :: more := by
  refine ⟨by decide, by decide, ?_⟩
  obtain ⟨segment, hseg, _, hleaf, _⟩ :=
    doVisitFields_classification sampleTables acceptAll [] (goString "Boolean")
      (.basic (goString "bool") (goString "false")) .nil .nil ⟨(), []⟩
  exact ⟨segment, hseg, hleaf (by decide)⟩

theorem recordPointersAllocated_of_allocated (fs : GoFields) :
    fs.allocated = true → fs.recordPointersAllocated = true := by
  induction fs using GoFields.induct with
  | hnil => intro _; rfl
  | hcons name value rest ihv ihr =>
    intro ha
    obtain ⟨harest, hrec⟩ := allocated_cons _ _ _ ha
    have hr := ihr harest
    cases value with
    | basic typ data => simp [GoFields.recordPointersAllocated, hr]
    | struct typ fields => simp [GoFields.recordPointersAllocated, hr]
    | nilPtr elemTyp n =>
      cases n with
      | none => simp [GoFields.recordPointersAllocated, hr]
      | some k =>
        cases hn : (GoValue.nilPtr elemTyp (some k)).isNested with
        | false => simp [GoFields.recordPointersAllocated, hr, hn]
        | true =>
          obtain ⟨typ, fields, hv, _⟩ := hrec hn
          cases hv
    | ptr target =>
      cases target with
      | struct typ fields =>
        cases hn : (GoValue.ptr (.struct typ fields)).isNested with
        | false => simp [GoFields.recordPointersAllocated, hr, hn]
        | true =>
          obtain ⟨typ2, fields2, hv, hfa⟩ := hrec hn
          cases hv
          simp [GoFields.recordPointersAllocated, hr, ihv typ fields rfl hfa]
      | basic typ data => simp [GoFields.recordPointersAllocated, hr]
      | nilPtr elemTyp n => simp [GoFields.recordPointersAllocated, hr]
      | ptr target => simp [GoFields.recordPointersAllocated, hr]

theorem visit_facts {σ : Type} (U : CaseTables) (v : visitor σ) (typ : GoString)
    (fields : GoFields) (state : σ) (halloc : fields.allocated = true) :
    ∃ e, (visit U (.ptr (.struct typ fields)) v state).2 = .ok e ∧
      appendAll .nil (failuresOf (visit U (.ptr (.struct typ fields)) v state).1.calls)
        = .ok e := by
  obtain ⟨new, hc, _, hok, hal⟩ := doVisitFields_facts U v fields [] .nil ⟨state, []⟩
  have hdv : visit U (.ptr (.struct typ fields)) v state
      = doVisitFields U v [] fields .nil ⟨state, []⟩ := by rw [visit, doVisit]
  rw [hdv]
  simp only [List.nil_append] at hc
  obtain ⟨e, he⟩ := hal halloc rfl
  exact ⟨e, he, by rw [hc]; exact (hok e he).1⟩

/-- C6 fails as stated: the record with the fields A int, P *int and B int
has no nested-record pointer, so its nested-record pointers are all
allocated; with a visitor that rejects every leaf the call for A returns an
error with the Key _A, and visit then panics inside reflect at P: no error
is returned, the failure of A is lost and B is never visited. -/
theorem visit_loses_failure_at_pointer_to_int :
    mixedFields.recordPointersAllocated = true ∧
    (visit sampleTables (.ptr (.struct (goString "main.Mixed") mixedFields))
        rejectAll ()).1.calls
      = [⟨goString "_A", .basic (goString "int") (goString "1"),
          some { error := goString "is invalid", Key := goString "_A" }⟩] ∧
    (visit sampleTables (.ptr (.struct (goString "main.Mixed") mixedFields))
        rejectAll ()).2 = .error (.panic "reflect: NumField of non-struct type") := by
  decide

/-- C6 as amended: for every record in which every pointer field whose type
is not a key of terminalTypes is an allocated pointer to a record, and so
on below it, and for every visitor, visit returns an error value e (it does
not stop at the first failure): e has a key K if and only if some visitor
call returned an error with Key K, and the message under K is the messages
of the failing calls with Key K, in call order, joined by a colon and a
blank. -/
theorem visit_aggregates {σ : Type} (U : CaseTables) (v : visitor σ) (typ : GoString)
    (fields : GoFields) (state : σ) (halloc : fields.allocated = true) :
    ∃ e, (visit U (.ptr (.struct typ fields)) v state).2 = .ok e ∧
      (∀ key, (e.lookup key).isSome = true ↔
        ∃ c ∈ (visit U (.ptr (.struct typ fields)) v state).1.calls,
          ∃ err, c.result = some err ∧ err.Key = key) ∧
      (∀ key, e.lookup key
        = joinErrors (messagesFor (visit U (.ptr (.struct typ fields)) v state).1.calls key)) := by
  obtain ⟨e, he, happ⟩ := visit_facts U v typ fields state halloc
  have hlook : ∀ key, e.lookup key
      = joinErrors (messagesFor (visit U (.ptr (.struct typ fields)) v state).1.calls key) := by
    intro key
    rw [appendAll_lookup _ .nil e rfl happ key]
    rfl
  refine ⟨e, he, ?_, hlook⟩
  intro key
  rw [hlook key]
  generalize (visit U (.ptr (.struct typ fields)) v state).1.calls = calls
  constructor
  · intro h
    cases hm : messagesFor calls key with
    | nil => rw [hm] at h; simp [joinErrors] at h
    | cons m ms =>
      have hmem : m ∈ messagesFor calls key := by rw [hm]; exact List.mem_cons_self _ _
      simp only [messagesFor, failuresOf, List.mem_map, List.mem_filter, List.mem_filterMap,
        decide_eq_true_eq] at hmem
      obtain ⟨err, ⟨⟨c, hc, hr⟩, hk⟩, _⟩ := hmem
      exact ⟨c, hc, err, hr, hk⟩
  · rintro ⟨c, hc, err, hr, hk⟩
    have hmem : err.error ∈ messagesFor calls key := by
      simp only [messagesFor, failuresOf, List.mem_map, List.mem_filter, List.mem_filterMap,
        decide_eq_true_eq]
      exact ⟨err, ⟨⟨c, hc, hr⟩, hk⟩, rfl⟩
    cases hm : messagesFor calls key with
    | nil => rw [hm] at hmem; cases hmem
    | cons m ms => simp [joinErrors]

/-- C6 as amended, at the record of the tests with a visitor that rejects
every leaf:
the failures of the top-level leaf Boolean and of the nested leaf Value are
both in the one returned error. -/
theorem visit_aggregates_witness :
    (testConfigFields (.ptr testNested)).allocated = true ∧
    ∃ e, (visit sampleTables (testConfig (.ptr testNested)) rejectAll ()).2 = .ok e ∧
      e.lookup (goString "_BOOLEAN") = some (goString "is invalid") ∧
      e.lookup (goString "_NESTED_VALUE") = some (goString "is invalid") := by
  refine ⟨by decide, ?_⟩
  obtain ⟨e, he, _, hl⟩ := visit_aggregates sampleTables rejectAll
    (goString "configs_test.Config") (testConfigFields (.ptr testNested)) () (by decide)
  refine ⟨e, he, ?_, ?_⟩
  · rw [hl]; decide
  · rw [hl]; decide

/-- C7 fails as stated: on the record with the fields A int, P *int and
B int, whose nested-record pointers are all allocated as it has none, and
with a visitor that accepts every leaf, no visitor call returns an error,
and yet visit does not return nil: it panics inside reflect at P. -/
theorem visit_not_nil_without_failure :
    mixedFields.recordPointersAllocated = true ∧
    (∀ c ∈ (visit sampleTables (.ptr (.struct (goString "main.Mixed") mixedFields))
        acceptAll ()).1.calls, c.result = none) ∧
    (visit sampleTables (.ptr (.struct (goString "main.Mixed") mixedFields))
        acceptAll ()).2 ≠ .ok .nil ∧
    (visit sampleTables (.ptr (.struct (goString "main.Mixed") mixedFields))
        acceptAll ()).2 = .error (.panic "reflect: NumField of non-struct type") := by
  decide

/-- C7 as amended: for every record in which every pointer field whose type
is not a key of terminalTypes is an allocated pointer to a record, and so
on below it, and for every visitor, visit returns, and what it returns is
nil if and only if no visitor call returned an error. -/
theorem visit_nil_iff {σ : Type} (U : CaseTables) (v : visitor σ) (typ : GoString)
    (fields : GoFields) (state : σ) (halloc : fields.allocated = true) :
    ∃ e, (visit U (.ptr (.struct typ fields)) v state).2 = .ok e ∧
      (e = .nil ↔
        ∀ c ∈ (visit U (.ptr (.struct typ fields)) v state).1.calls, c.result = none) := by
  obtain ⟨e, he, happ⟩ := visit_facts U v typ fields state halloc
  refine ⟨e, he, ?_⟩
  rw [appendAll_nil_iff _ _ _ happ]
  generalize (visit U (.ptr (.struct typ fields)) v state).1.calls = calls
  simp only [true_and, failuresOf, List.filterMap_eq_nil_iff]

/-- C7 as amended, at the record of the tests with a visitor that accepts
every leaf:
visit returns nil. -/
theorem visit_nil_iff_witness :
    (testConfigFields (.ptr testNested)).allocated = true ∧
    (visit sampleTables (testConfig (.ptr testNested)) acceptAll ()).2 = .ok .nil := by
  refine ⟨by decide, ?_⟩
  obtain ⟨e, he, hiff⟩ := visit_nil_iff sampleTables acceptAll
    (goString "configs_test.Config") (testConfigFields (.ptr testNested)) () (by decide)
  have hnil : e = .nil := hiff.mpr (by decide)
  rw [← hnil]; exact he

/-! ## The error aggregator: claims C8 to C10 -/

/-- C8: for every err (nil, a *traversalError, or a foreign error), key,
message format and arguments, Ensure with predicate true returns err
itself: it is nil exactly when err is, it is foreign exactly when err is,
and it holds the same message under every key. -/
theorem Ensure_true_returns_err (sprintf : GoString → List GoArg → GoString) (err : GoError)
    (key msgFormat : GoString) (msgArgs : List GoArg) :
    Ensure sprintf err key true msgFormat msgArgs = .ok err ∧
    ∀ e, Ensure sprintf err key true msgFormat msgArgs = .ok e →
      (e = .nil ↔ err = .nil) ∧ e.isForeign = err.isForeign ∧
      ∀ other, e.lookup other = err.lookup other := by
  have h : Ensure sprintf err key true msgFormat msgArgs = .ok err := by
    simp [Ensure]
  refine ⟨h, ?_⟩
  intro e he
  rw [h] at he
  cases he
  exact ⟨Iff.rfl, rfl, fun _ => rfl⟩

/-- C9: for every key K and format and arguments with formatted message M,
Ensure(nil, K, false, ...) returns a non-nil *traversalError whose map holds
exactly one key, K, with the message M; and when the lower-cased K does not
contain password, the only text that its Error() can return is the header
line followed by the line of K: two blanks, K, a blank, M, then the
got-suffix with the environment value of K. -/
theorem Ensure_nil_false (sprintf : GoString → List GoArg → GoString)
    (toLower getenv : GoString → GoString) (key msgFormat : GoString) (msgArgs : List GoArg) :
    Ensure sprintf .nil key false msgFormat msgArgs
      = .ok (.traversal ⟨[], [(key, sprintf msgFormat msgArgs)]⟩) ∧
    (Contains (toLower key) (goString "password") = false →
      ∀ text,
        traversalError.IsError toLower getenv
          ⟨[], [(key, sprintf msgFormat msgArgs)]⟩ text ↔
        text = goString "Errors occurred while acting on the struct:\n"
          ++ (goString "  " ++ key ++ goString " " ++ sprintf msgFormat msgArgs
            ++ goString ": got \"" ++ getenv key ++ goString "\"\n")) := by
  refine ⟨by simp [Ensure, appendError], ?_⟩
  intro hpw text
  unfold traversalError.IsError
  constructor
  · rintro ⟨order, hperm, htext⟩
    rw [List.perm_singleton.mp hperm] at htext
    rw [htext]
    simp [traversalError.ErrorIn, errorLine, hpw]
  · intro htext
    refine ⟨[(key, sprintf msgFormat msgArgs)], List.Perm.refl _, ?_⟩
    rw [htext]
    simp [traversalError.ErrorIn, errorLine, hpw]

/-- C9 at the call of TestExtraErrors, the variable MY_INT being set to
-1: Error() returns the header and the line of MY_INT. -/
theorem Ensure_nil_false_witness :
    Contains (sampleToLower (goString "MY_INT")) (goString "password") = false ∧
    traversalError.IsError sampleToLower (fun _ => goString "-1")
      { summary := [],
        invalidKeys := [(goString "MY_INT",
          sampleSprintf (goString "must be a positive integer") [])] }
      (goString "Errors occurred while acting on the struct:\n"
        ++ goString "  MY_INT must be a positive integer: got \"-1\"\n") := by
  refine ⟨by decide, ?_⟩
  have h := (Ensure_nil_false sampleSprintf sampleToLower (fun _ => goString "-1")
    (goString "MY_INT") (goString "must be a positive integer") []).2 (by decide)
  rw [h]
  decide

theorem appendAll_same_key (key : GoString) (msgs : List GoString) :
    ∀ (p : traversalError) (existing : GoString),
      mapLookup p.invalidKeys key = some existing →
      ∃ r, appendAll (.traversal p) (msgs.map (fun m => { error := m, Key := key }))
          = .ok (.traversal r) ∧
        mapLookup r.invalidKeys key = some (joinOnto existing msgs) ∧
        r.keys = p.keys := by
  induction msgs with
  | nil =>
    intro p existing h
    exact ⟨p, rfl, by simpa [joinOnto] using h, rfl⟩
  | cons m msgs ih =>
    intro p existing h
    have hq : appendError (.traversal p) key m
        = .ok (.traversal { p with
            invalidKeys := mapSet p.invalidKeys key (existing ++ goString ": " ++ m) }) := by
      simp only [appendError, h]
    obtain ⟨r, hr, hl, hk⟩ := ih
      { p with invalidKeys := mapSet p.invalidKeys key (existing ++ goString ": " ++ m) }
      (existing ++ goString ": " ++ m) (mapLookup_mapSet_same _ _ _)
    refine ⟨r, ?_, ?_, ?_⟩
    · simp only [List.map_cons, appendAll, hq]
      exact hr
    · rw [hl, joinOnto_cons]
    · rw [hk]
      exact mapSet_keys_of_some _ _ _ _ h

/-- C10: when an aggregated error holds the message E under the key K,
merging M under K, with appendError or with Ensure and predicate false,
leaves the same keys and under K the one message E, colon, blank, M, the
existing message first; and merging M1, ..., Mn in turn leaves under K
the message E: M1: ...: Mn. -/
theorem appendError_keeps_existing (sprintf : GoString → List GoArg → GoString)
    (p : traversalError) (key existing msg : GoString)
    (h : mapLookup p.invalidKeys key = some existing) :
    (∃ q, appendError (.traversal p) key msg = .ok (.traversal q) ∧
      mapLookup q.invalidKeys key = some (existing ++ goString ": " ++ msg) ∧
      q.keys = p.keys) ∧
    (∀ msgFormat msgArgs, sprintf msgFormat msgArgs = msg →
      Ensure sprintf (.traversal p) key false msgFormat msgArgs
        = appendError (.traversal p) key msg) ∧
    (∀ msgs : List GoString,
      ∃ r, appendAll (.traversal p) (msgs.map (fun m => { error := m, Key := key }))
          = .ok (.traversal r) ∧
        mapLookup r.invalidKeys key = some (joinOnto existing msgs) ∧
        r.keys = p.keys) := by
  refine ⟨?_, ?_, fun msgs => appendAll_same_key key msgs p existing h⟩
  · refine ⟨{ p with
        invalidKeys := mapSet p.invalidKeys key (existing ++ goString ": " ++ msg) },
      by simp only [appendError, h], mapLookup_mapSet_same _ _ _, ?_⟩
    exact mapSet_keys_of_some _ _ _ _ h
  · intro msgFormat msgArgs hm
    simp [Ensure, hm]

/-- C10 at the merge of TestMultipleErrors: the parse error of MY_INT
stays first and the message of Ensure follows it. -/
theorem appendError_keeps_existing_witness :
    mapLookup [(goString "MY_INT", goString "must be an int")] (goString "MY_INT")
      = some (goString "must be an int") ∧
    ∃ q, appendError
        (.traversal ⟨[], [(goString "MY_INT", goString "must be an int")]⟩)
        (goString "MY_INT") (goString "must be positive") = .ok (.traversal q) ∧
      mapLookup q.invalidKeys (goString "MY_INT")
        = some (goString "must be an int: must be positive") := by
  refine ⟨by decide, ?_⟩
  obtain ⟨q, hq, hl, _⟩ := (appendError_keeps_existing sampleSprintf
    ⟨[], [(goString "MY_INT", goString "must be an int")]⟩
    (goString "MY_INT") (goString "must be an int") (goString "must be positive")
    (by decide)).1
  exact ⟨q, hq, by rw [hl]; decide⟩

/-! ## Rendering: claims C11 and C12 -/

theorem mapLookup_of_mem (m : List (GoString × GoString)) (hnd : (m.map Prod.fst).Nodup)
    (key msg : GoString) (hmem : (key, msg) ∈ m) : mapLookup m key = some msg := by
  induction m with
  | nil => cases hmem
  | cons e m ih =>
    obtain ⟨k, x⟩ := e
    simp only [List.map_cons, List.nodup_cons] at hnd
    rcases List.mem_cons.mp hmem with h | h
    · cases h
      simp [mapLookup]
    · have hk : k ≠ key := by
        intro hk
        subst hk
        exact hnd.1 (List.mem_map.mpr ⟨(k, msg), h, rfl⟩)
      simp only [mapLookup, hk, if_false]
      exact ih hnd.2 h

theorem mapLookup_isSome_of_mem_keys (m : List (GoString × GoString)) (key : GoString)
    (hmem : key ∈ m.map Prod.fst) : ∃ msg, mapLookup m key = some msg ∧ (key, msg) ∈ m := by
  induction m with
  | nil => cases hmem
  | cons e m ih =>
    obtain ⟨k, x⟩ := e
    by_cases hk : k = key
    · subst hk
      exact ⟨x, by simp [mapLookup], List.mem_cons_self _ _⟩
    · simp only [List.map_cons, List.mem_cons] at hmem
      rcases hmem with h | h
      · exact absurd h.symm hk
      · obtain ⟨msg, hl, hm⟩ := ih h
        exact ⟨msg, by simp [mapLookup, hk, hl], List.mem_cons_of_mem _ hm⟩

theorem errorLine_eq_keyLine (toLower getenv : GoString → GoString) (p : traversalError)
    (key msg : GoString) (h : mapLookup p.invalidKeys key = some msg) :
    errorLine toLower getenv key msg = keyLine toLower getenv p key := by
  simp only [errorLine, keyLine, h]

theorem entries_eq_map_keys (m : List (GoString × GoString)) (hnd : (m.map Prod.fst).Nodup) :
    m = (m.map Prod.fst).map (fun k => (k, (mapLookup m k).getD [])) := by
  rw [List.map_map]
  conv_lhs => rw [← List.map_id m]
  apply List.map_congr_left
  intro e he
  obtain ⟨k, x⟩ := e
  simp [mapLookup_of_mem m hnd k x he]

/-- C11: for every aggregated error p (a map, so with each key once) and
every environment, Error() returns a text, and the texts it can return are
exactly the header line followed by one line per key of p, each key once,
in some order of the keys: the line of key K with message M is two blanks,
K, a blank, M and the got-suffix with the environment value of K, or no
suffix when the lower-cased K contains password. -/
theorem Error_one_line_per_key (toLower getenv : GoString → GoString) (p : traversalError)
    (hnd : p.keys.Nodup) :
    (∃ text, traversalError.IsError toLower getenv p text) ∧
    ∀ text, traversalError.IsError toLower getenv p text ↔
      ∃ ks : List GoString, ks.Perm p.keys ∧ ks.Nodup ∧
        text = goString "Errors occurred while acting on the struct:\n"
          ++ (ks.map (keyLine toLower getenv p)).flatten := by
  unfold traversalError.keys at hnd
  refine ⟨⟨_, p.invalidKeys, List.Perm.refl _, rfl⟩, ?_⟩
  intro text
  constructor
  · rintro ⟨order, hperm, htext⟩
    refine ⟨order.map Prod.fst, hperm.map _, (hperm.map Prod.fst).nodup_iff.mpr hnd, ?_⟩
    rw [htext, traversalError.ErrorIn, List.map_map]
    congr 2
    apply List.map_congr_left
    intro e he
    obtain ⟨k, x⟩ := e
    exact errorLine_eq_keyLine toLower getenv p k x
      (mapLookup_of_mem _ hnd k x (hperm.subset he))
  · rintro ⟨ks, hperm, _, htext⟩
    refine ⟨ks.map (fun k => (k, (mapLookup p.invalidKeys k).getD [])), ?_, ?_⟩
    · have h := hperm.map (fun k => (k, (mapLookup p.invalidKeys k).getD []))
      unfold traversalError.keys at h
      rw [← entries_eq_map_keys p.invalidKeys hnd] at h
      exact h
    · rw [htext, traversalError.ErrorIn, List.map_map]
      congr 2
      apply List.map_congr_left
      intro k hk
      obtain ⟨msg, hl, _⟩ := mapLookup_isSome_of_mem_keys p.invalidKeys k (hperm.subset hk)
      simp only [Function.comp, hl, Option.getD_some]
      exact (errorLine_eq_keyLine toLower getenv p k msg hl).symm

/-- C11 at an aggregated error with the keys MY_INT and MY_SOME_PASSWORD:
one of the texts of Error() is the header, the line of MY_INT with its
got-suffix and the line of MY_SOME_PASSWORD without one. -/
theorem Error_one_line_per_key_witness :
    (traversalError.keys ⟨[], [(goString "MY_INT", goString "must be an int"),
      (goString "MY_SOME_PASSWORD", goString "is invalid")]⟩).Nodup ∧
    traversalError.IsError sampleToLower (fun _ => goString "foo")
      ⟨[], [(goString "MY_INT", goString "must be an int"),
        (goString "MY_SOME_PASSWORD", goString "is invalid")]⟩
      (goString "Errors occurred while acting on the struct:\n"
        ++ goString "  MY_INT must be an int: got \"foo\"\n"
        ++ goString "  MY_SOME_PASSWORD is invalid\n") := by
  refine ⟨by decide, ?_⟩
  rw [(Error_one_line_per_key sampleToLower (fun _ => goString "foo")
    ⟨[], [(goString "MY_INT", goString "must be an int"),
      (goString "MY_SOME_PASSWORD", goString "is invalid")]⟩ (by decide)).2]
  exact ⟨[goString "MY_INT", goString "MY_SOME_PASSWORD"], List.Perm.refl _, by decide,
    by decide⟩

theorem errorLine_agree (toLower getenv1 getenv2 : GoString → GoString)
    (hagree : ∀ key, Contains (toLower key) (goString "password") = false →
      getenv1 key = getenv2 key) (env err : GoString) :
    errorLine toLower getenv1 env err = errorLine toLower getenv2 env err := by
  unfold errorLine
  cases hc : Contains (toLower env) (goString "password") with
  | true => simp
  | false => simp [hagree env hc]

/-- C12: the text of Error() does not depend on the environment value of a
key whose lower-cased name contains password: two environments that agree
on every other key give the same text for every order of the entries, hence
the same texts of Error(); and the line of MY_SOME_PASSWORD is the same in
every environment, with no value in it. -/
theorem Error_redacts_password (toLower getenv1 getenv2 : GoString → GoString)
    (p : traversalError)
    (hagree : ∀ key, Contains (toLower key) (goString "password") = false →
      getenv1 key = getenv2 key) :
    (∀ order, traversalError.ErrorIn toLower getenv1 order
      = traversalError.ErrorIn toLower getenv2 order) ∧
    (∀ text, traversalError.IsError toLower getenv1 p text ↔
      traversalError.IsError toLower getenv2 p text) ∧
    (∀ getenv : GoString → GoString,
      errorLine sampleToLower getenv (goString "MY_SOME_PASSWORD") (goString "is invalid")
        = goString "  MY_SOME_PASSWORD is invalid\n") := by
  have h1 : ∀ order, traversalError.ErrorIn toLower getenv1 order
      = traversalError.ErrorIn toLower getenv2 order := by
    intro order
    unfold traversalError.ErrorIn
    congr 2
    apply List.map_congr_left
    intro e _
    exact errorLine_agree toLower getenv1 getenv2 hagree e.1 e.2
  refine ⟨h1, ?_, ?_⟩
  · intro text
    unfold traversalError.IsError
    constructor
    · rintro ⟨order, hp, ht⟩
      exact ⟨order, hp, by rw [ht, h1]⟩
    · rintro ⟨order, hp, ht⟩
      exact ⟨order, hp, by rw [ht, h1]⟩
  · intro getenv
    have hc : Contains (sampleToLower (goString "MY_SOME_PASSWORD")) (goString "password")
        = true := by decide
    unfold errorLine
    rw [if_pos hc]
    decide

/-- C12 at the environments of TestPasswordPrinting: whether
MY_SOME_PASSWORD is set to secret or is unset, Error() gives the same text
for the error that Ensure made under that key. -/
theorem Error_redacts_password_witness :
    (∀ key, Contains (sampleToLower key) (goString "password") = false →
      passwordEnv (goString "secret") key = passwordEnv [] key) ∧
    traversalError.ErrorIn sampleToLower (passwordEnv (goString "secret"))
        [(goString "MY_SOME_PASSWORD", goString "is invalid")]
      = traversalError.ErrorIn sampleToLower (passwordEnv [])
        [(goString "MY_SOME_PASSWORD", goString "is invalid")] := by
  have hagree : ∀ key, Contains (sampleToLower key) (goString "password") = false →
      passwordEnv (goString "secret") key = passwordEnv [] key := by
    intro key hc
    unfold passwordEnv
    by_cases hk : key = goString "MY_SOME_PASSWORD"
    · subst hk
      exact absurd hc (by decide)
    · simp [hk]
  exact ⟨hagree, (Error_redacts_password sampleToLower (passwordEnv (goString "secret"))
    (passwordEnv []) ⟨[], []⟩ hagree).1 _⟩

/-! ## The error aggregator: claims C13 and C15 to C17 -/

theorem mem_keys_of_mapLookup (m : List (GoString × GoString)) (key x : GoString)
    (h : mapLookup m key = some x) : key ∈ m.map Prod.fst := by
  induction m with
  | nil => simp [mapLookup] at h
  | cons e m ih =>
    obtain ⟨k, y⟩ := e
    by_cases hk : k = key
    · simp [hk]
    · simp only [mapLookup, hk, if_false] at h
      exact List.mem_cons_of_mem _ (ih h)

/-- C13 fails as stated: with predicate true, Ensure on an error of a
foreign type does not panic; it returns that error. -/
theorem Ensure_foreign_true_returns :
    Ensure sampleSprintf (.foreign (goString "boom")) (goString "MY_INT") true
      (goString "must be positive") [] = .ok (.foreign (goString "boom")) := by
  decide

/-- C13 as amended: for every err that is non-nil and not a
*traversalError, and every key, message format and arguments, Ensure with
predicate false panics instead of returning; with predicate true it returns
err unchanged. -/
theorem Ensure_foreign (sprintf : GoString → List GoArg → GoString) (m key msgFormat : GoString)
    (msgArgs : List GoArg) :
    Ensure sprintf (.foreign m) key false msgFormat msgArgs
      = .error (.panic "Ensure() only works on errors returend by this library") ∧
    Ensure sprintf (.foreign m) key true msgFormat msgArgs = .ok (.foreign m) := by
  constructor
  · simp [Ensure, appendError]
  · simp [Ensure]

/-- C15: a merge changes only the entry of its key.  For every aggregated
error p and key K, appendError (and Ensure with predicate false) returns an
aggregated error whose keys are those of p and K, and whose message under
every other key is what it was. -/
theorem appendError_frame (sprintf : GoString → List GoArg → GoString) (p : traversalError)
    (key msg : GoString) :
    ∃ q, appendError (.traversal p) key msg = .ok (.traversal q) ∧
      (∀ other, other ≠ key → mapLookup q.invalidKeys other = mapLookup p.invalidKeys other) ∧
      (∀ k, k ∈ q.keys ↔ k ∈ p.keys ∨ k = key) ∧
      q.summary = p.summary ∧
      ∀ msgFormat msgArgs, sprintf msgFormat msgArgs = msg →
        Ensure sprintf (.traversal p) key false msgFormat msgArgs = .ok (.traversal q) := by
  cases hl : mapLookup p.invalidKeys key with
  | none =>
    have happ : appendError (.traversal p) key msg
        = .ok (.traversal { p with invalidKeys := mapSet p.invalidKeys key msg }) := by
      simp only [appendError, hl]
    refine ⟨_, happ, ?_, ?_, rfl, ?_⟩
    · intro other hne
      exact mapLookup_mapSet_other _ _ _ _ (Ne.symm hne)
    · intro k
      simp only [traversalError.keys, mapSet_keys_of_none _ _ _ hl, List.mem_append,
        List.mem_singleton]
    · intro msgFormat msgArgs hm
      simp only [Ensure, Bool.false_eq_true, if_false, hm, happ]
  | some existing =>
    have happ : appendError (.traversal p) key msg
        = .ok (.traversal { p with
            invalidKeys := mapSet p.invalidKeys key (existing ++ goString ": " ++ msg) }) := by
      simp only [appendError, hl]
    refine ⟨_, happ, ?_, ?_, rfl, ?_⟩
    · intro other hne
      exact mapLookup_mapSet_other _ _ _ _ (Ne.symm hne)
    · intro k
      simp only [traversalError.keys, mapSet_keys_of_some _ _ _ _ hl]
      constructor
      · intro h; exact Or.inl h
      · rintro (h | h)
        · exact h
        · subst h
          exact mem_keys_of_mapLookup _ _ _ hl
    · intro msgFormat msgArgs hm
      simp only [Ensure, Bool.false_eq_true, if_false, hm, happ]

theorem mapSet_ne_nil (m : List (GoString × GoString)) (key val : GoString) :
    mapSet m key val ≠ [] := by
  cases m with
  | nil => simp [mapSet]
  | cons e m =>
    obtain ⟨k, x⟩ := e
    by_cases hk : k = key <;> simp [mapSet, hk]

theorem appendError_not_empty (err : GoError) (key msg : GoString) (e : GoError)
    (h : appendError err key msg = .ok e) : e ≠ .nil ∧ e.emptyMap = false := by
  cases err with
  | nil =>
    simp only [appendError, Except.ok.injEq] at h
    subst h
    exact ⟨by simp, rfl⟩
  | foreign m => simp [appendError] at h
  | traversal casted =>
    simp only [appendError] at h
    split at h
    · simp only [Except.ok.injEq] at h
      subst h
      refine ⟨by simp, ?_⟩
      simp only [GoError.emptyMap, List.isEmpty_eq_false]
      exact mapSet_ne_nil _ _ _
    · simp only [Except.ok.injEq] at h
      subst h
      refine ⟨by simp, ?_⟩
      simp only [GoError.emptyMap, List.isEmpty_eq_false]
      exact mapSet_ne_nil _ _ _

theorem appendAll_not_empty (es : List visitError) :
    ∀ (err e : GoError), err.emptyMap = false → appendAll err es = .ok e →
      e.emptyMap = false := by
  induction es with
  | nil =>
    intro err e he h
    simp only [appendAll, Except.ok.injEq] at h
    rw [← h]; exact he
  | cons x es ih =>
    intro err e _ h
    simp only [appendAll] at h
    cases hx : appendError err x.Key x.error with
    | error a => simp [hx] at h
    | ok err1 =>
      simp only [hx] at h
      exact ih err1 e (appendError_not_empty _ _ _ _ hx).2 h

theorem visit_not_empty {σ : Type} (U : CaseTables) (container : GoValue) (v : visitor σ)
    (state : σ) (e : GoError) (h : (visit U container v state).2 = .ok e) :
    e.emptyMap = false := by
  by_cases hrec : ∃ typ fields, container = .ptr (.struct typ fields)
  · obtain ⟨typ, fields, hc⟩ := hrec
    subst hc
    obtain ⟨new, _, _, hok, _⟩ := doVisitFields_facts U v fields [] .nil ⟨state, []⟩
    have hdv : visit U (.ptr (.struct typ fields)) v state
        = doVisitFields U v [] fields .nil ⟨state, []⟩ := by rw [visit, doVisit]
    rw [hdv] at h
    exact appendAll_not_empty _ .nil e rfl (hok e h).1
  · have hne : ∀ typ fields, container ≠ .ptr (.struct typ fields) :=
      fun typ fields hc => hrec ⟨typ, fields, hc⟩
    have := (doVisit_not_record U v [] container .nil ⟨state, []⟩ hne).2 e h
    rw [this]; rfl

/-- C16: an aggregated error with an empty map is never produced.  What
appendError returns is non-nil and holds at least one key; what Ensure
returns, applied to nil or to an error that holds at least one key, is nil
or holds at least one key; what visit returns is nil or holds at least one
key; and every text of Error() for a map with at least one key has the line
of one of its entries after the header. -/
theorem no_empty_aggregated_error (sprintf : GoString → List GoArg → GoString)
    (toLower getenv : GoString → GoString) :
    (∀ err key msg e, appendError err key msg = .ok e → e ≠ .nil ∧ e.emptyMap = false) ∧
    (∀ err key predicate msgFormat msgArgs e, err.emptyMap = false →
      Ensure sprintf err key predicate msgFormat msgArgs = .ok e → e.emptyMap = false) ∧
    (∀ (σ : Type) (U : CaseTables) (container : GoValue) (v : visitor σ) (state : σ)
        (e : GoError),
      (visit U container v state).2 = .ok e → e.emptyMap = false) ∧
    (∀ (p : traversalError) (text : GoString), (GoError.traversal p).emptyMap = false →
      traversalError.IsError toLower getenv p text →
      ∃ key msg more, (key, msg) ∈ p.invalidKeys ∧
        text = goString "Errors occurred while acting on the struct:\n"
          ++ errorLine toLower getenv key msg ++ more) := by
  refine ⟨appendError_not_empty, ?_, ?_, ?_⟩
  · intro err key predicate msgFormat msgArgs e he h
    cases predicate with
    | true =>
      simp only [Ensure, if_true, Except.ok.injEq] at h
      rw [← h]; exact he
    | false =>
      simp only [Ensure, Bool.false_eq_true, if_false] at h
      exact (appendError_not_empty _ _ _ _ h).2
  · intro σ U container v state e h
    exact visit_not_empty U container v state e h
  · intro p text hp ⟨order, hperm, htext⟩
    cases order with
    | nil =>
      have : p.invalidKeys = [] := List.perm_nil.mp hperm.symm
      simp [GoError.emptyMap, this] at hp
    | cons x order =>
      refine ⟨x.1, x.2, (order.map (fun e => errorLine toLower getenv e.1 e.2)).flatten,
        hperm.subset (List.mem_cons_self _ _), ?_⟩
      rw [htext, traversalError.ErrorIn, List.map_cons, List.flatten_cons, List.append_assoc]

/-- C16 at the error that visit returns for the record of the tests with a
visitor that rejects every leaf: it is not nil and holds a key. -/
theorem no_empty_aggregated_error_witness :
    ∃ e, (visit sampleTables (testConfig (.ptr testNested)) rejectAll ()).2 = .ok e ∧
      e ≠ .nil ∧ e.emptyMap = false := by
  obtain ⟨e, he, hiff⟩ := visit_facts sampleTables rejectAll
    (goString "configs_test.Config") (testConfigFields (.ptr testNested)) () (by decide)
  refine ⟨e, he, ?_, ?_⟩
  · intro hnil
    have := (appendAll_nil_iff _ _ _ hiff).mp hnil
    exact absurd this.2 (by decide)
  · exact (no_empty_aggregated_error sampleSprintf sampleToLower (fun _ => [])).2.2.1
      Unit sampleTables (testConfig (.ptr testNested)) rejectAll () e he

/-- C17: for every err that is nil or a non-nil *traversalError, and every
key, predicate and message, Ensure returns; and whenever Ensure panics, err
is of a foreign type and predicate is false. -/
theorem Ensure_returns (sprintf : GoString → List GoArg → GoString) (err : GoError)
    (key : GoString) (predicate : Bool) (msgFormat : GoString) (msgArgs : List GoArg) :
    (err.isForeign = false →
      ∃ e, Ensure sprintf err key predicate msgFormat msgArgs = .ok e) ∧
    (∀ a, Ensure sprintf err key predicate msgFormat msgArgs = .error a →
      err.isForeign = true ∧ predicate = false) := by
  constructor
  · intro hf
    cases predicate with
    | true => exact ⟨err, by simp [Ensure]⟩
    | false =>
      obtain ⟨p, hp, _⟩ := appendError_lookup err key (sprintf msgFormat msgArgs) hf
      exact ⟨.traversal p, by simp only [Ensure, Bool.false_eq_true, if_false, hp]⟩
  · intro a h
    cases predicate with
    | true => simp [Ensure] at h
    | false =>
      refine ⟨?_, rfl⟩
      cases hf : err.isForeign with
      | true => rfl
      | false =>
        obtain ⟨p, hp, _⟩ := appendError_lookup err key (sprintf msgFormat msgArgs) hf
        simp only [Ensure, Bool.false_eq_true, if_false, hp] at h
        cases h

/-- C17 at the calls of TestExtraErrors, on nil with predicate true and
with predicate false: both return. -/
theorem Ensure_returns_witness :
    GoError.nil.isForeign = false ∧
    (∃ e, Ensure sampleSprintf .nil (goString "MY_INT") true
      (goString "must be a negative integer") [] = .ok e) ∧
    (∃ e, Ensure sampleSprintf .nil (goString "MY_INT") false
      (goString "must be a positive integer") [] = .ok e) :=
  ⟨rfl,
    (Ensure_returns sampleSprintf .nil (goString "MY_INT") true
      (goString "must be a negative integer") []).1 rfl,
    (Ensure_returns sampleSprintf .nil (goString "MY_INT") false
      (goString "must be a positive integer") []).1 rfl⟩

/-! ## The order of the calls: claim C14 -/

theorem leafPaths_cons_leaf (name : GoString) (value : GoValue) (rest : GoFields)
    (hn : value.isNested = false) :
    leafPaths (.cons name value rest) = ([name], value) :: leafPaths rest := by
  cases value with
  | basic typ data => simp [leafPaths, hn]
  | struct typ fields => simp [leafPaths, hn]
  | nilPtr elemTyp n => simp [leafPaths, hn]
  | ptr target =>
    cases target with
    | struct typ fields => simp [leafPaths, hn]
    | basic typ data => simp [leafPaths, hn]
    | nilPtr elemTyp n => simp [leafPaths, hn]
    | ptr target => simp [leafPaths, hn]

theorem leafPaths_cons_record (name typ : GoString) (fields rest : GoFields)
    (hn : (GoValue.ptr (.struct typ fields)).isNested = true) :
    leafPaths (.cons name (.ptr (.struct typ fields)) rest)
      = (leafPaths fields).map (fun pv => (name :: pv.1, pv.2)) ++ leafPaths rest := by
  simp [leafPaths, hn]

theorem doVisitFields_calls_order {σ : Type} (U : CaseTables) (v : visitor σ)
    (fs : GoFields) :
    ∀ (P : GoString) (errs : GoError) (tr : Trace σ),
      fs.allocated = true → errs.isForeign = false →
      (doVisitFields U v P fs errs tr).1.calls.map Call.keyValue
        = tr.calls.map Call.keyValue
          ++ (leafPaths fs).map (fun pv => (envKey U P pv.1, pv.2)) := by
  induction fs using GoFields.induct with
  | hnil =>
    intro P errs tr _ _
    simp [doVisitFields, leafPaths]
  | hcons name value rest ihv ihr =>
    intro P errs tr ha hf
    obtain ⟨segment, hseg⟩ := envFromName_total U name
    obtain ⟨harest, hrec⟩ := allocated_cons _ _ _ ha
    have hkey1 : envKey U P [name] = some (P ++ goString "_" ++ segment) := by
      rw [envKey_cons U P name segment [] hseg]; rfl
    cases hn : value.isNested with
    | false =>
      rw [doVisitFields_cons_leaf U v P name segment value rest errs tr hseg hn,
        leafPaths_cons_leaf name value rest hn]
      have hcalls : (afterCall v (P ++ goString "_" ++ segment) value tr).calls.map
            Call.keyValue
          = tr.calls.map Call.keyValue ++ [(envKey U P [name], value)] := by
        simp [afterCall, Call.keyValue, hkey1]
      cases hres : (v (P ++ goString "_" ++ segment) value tr.state).1 with
      | none =>
        dsimp only
        rw [ihr P errs _ harest hf, hcalls]
        simp
      | some e =>
        dsimp only
        obtain ⟨p, hp, _⟩ := appendError_lookup errs e.Key e.error hf
        rw [hp]
        dsimp only
        rw [ihr P (.traversal p) _ harest rfl, hcalls]
        simp
    | true =>
      obtain ⟨typ, fields, hval, hfa⟩ := hrec hn
      subst hval
      rw [doVisitFields_cons_nested U v P name segment _ rest errs tr hseg hn,
        leafPaths_cons_record name typ fields rest hn]
      have hdv : doVisit U v (P ++ goString "_" ++ segment) (.ptr (.struct typ fields)) errs tr
          = doVisitFields U v (P ++ goString "_" ++ segment) fields errs tr := by
        rw [doVisit]
      rw [hdv]
      obtain ⟨new1, _, _, hok1, hal1⟩ :=
        doVisitFields_facts U v fields (P ++ goString "_" ++ segment) errs tr
      obtain ⟨errs1, he1⟩ := hal1 hfa hf
      have hf1 : errs1.isForeign = false :=
        appendAll_notForeign _ _ _ (hok1 errs1 he1).1 hf
      have hin := ihv typ fields rfl (P ++ goString "_" ++ segment) errs tr hfa hf
      rcases hout : doVisitFields U v (P ++ goString "_" ++ segment) fields errs tr
        with ⟨tr1, r1⟩
      rw [hout] at he1 hin
      simp only at he1 hin
      subst he1
      dsimp only
      rw [ihr P errs1 tr1 harest hf1, hin, List.append_assoc, List.map_append, List.map_map]
      congr 2
      apply List.map_congr_left
      intro pv _
      simp only [Function.comp, envKey_cons U P name segment pv.1 hseg]

theorem leafPaths_cons_other (name : GoString) (value : GoValue) (rest : GoFields)
    (hn : value.isNested = true) (hne : ∀ typ fields, value ≠ .ptr (.struct typ fields)) :
    leafPaths (.cons name value rest) = leafPaths rest := by
  cases value with
  | basic typ data => simp [leafPaths, hn]
  | struct typ fields => simp [leafPaths, hn]
  | nilPtr elemTyp n => simp [leafPaths, hn]
  | ptr target =>
    cases target with
    | struct typ fields => exact absurd rfl (hne typ fields)
    | basic typ data => simp [leafPaths, hn]
    | nilPtr elemTyp n => simp [leafPaths, hn]
    | ptr target => simp [leafPaths, hn]

theorem LeafAt_not_nested (fs : GoFields) (path : List GoString) (leaf : GoValue)
    (h : LeafAt fs path leaf) : leaf.isNested = false := by
  induction h with
  | atField _ _ _ hn => exact hn
  | inNested _ _ _ _ _ _ _ _ ih => exact ih
  | inRest _ _ _ _ _ _ ih => exact ih

theorem LeafAt_iff_mem_leafPaths (fs : GoFields) :
    ∀ (path : List GoString) (leaf : GoValue),
      LeafAt fs path leaf ↔ (path, leaf) ∈ leafPaths fs := by
  induction fs using GoFields.induct with
  | hnil =>
    intro path leaf
    constructor
    · intro h; cases h
    · intro h; simp [leafPaths] at h
  | hcons name value rest ihv ihr =>
    intro path leaf
    cases hn : value.isNested with
    | false =>
      rw [leafPaths_cons_leaf name value rest hn]
      constructor
      · intro h
        rcases LeafAt_cons _ _ _ _ _ h with (⟨_, hp, hv⟩ | ⟨_, _, _, _, hn2, _, _⟩) | h2
        · rw [hp, hv]; exact List.mem_cons_self _ _
        · rw [hn] at hn2; cases hn2
        · exact List.mem_cons_of_mem _ ((ihr path leaf).mp h2)
      · intro h
        rcases List.mem_cons.mp h with h1 | h1
        · cases h1
          exact LeafAt.atField _ _ _ hn
        · exact LeafAt.inRest _ _ _ _ _ ((ihr path leaf).mpr h1)
    | true =>
      by_cases hrec : ∃ typ fields, value = .ptr (.struct typ fields)
      · obtain ⟨typ, fields, hval⟩ := hrec
        subst hval
        rw [leafPaths_cons_record name typ fields rest hn]
        constructor
        · intro h
          rcases LeafAt_cons _ _ _ _ _ h with (⟨hn2, _, _⟩ | ⟨t2, f2, p, hv2, _, hp, hl⟩) | h2
          · rw [hn] at hn2; cases hn2
          · cases hv2
            rw [hp]
            exact List.mem_append.mpr (Or.inl (List.mem_map.mpr
              ⟨(p, leaf), (ihv typ fields rfl p leaf).mp hl, rfl⟩))
          · exact List.mem_append.mpr (Or.inr ((ihr path leaf).mp h2))
        · intro h
          rcases List.mem_append.mp h with h1 | h1
          · obtain ⟨pv, hpv, heq⟩ := List.mem_map.mp h1
            cases heq
            exact LeafAt.inNested _ _ _ _ _ _ hn ((ihv typ fields rfl pv.1 pv.2).mpr hpv)
          · exact LeafAt.inRest _ _ _ _ _ ((ihr path leaf).mpr h1)
      · have hne : ∀ typ fields, value ≠ .ptr (.struct typ fields) :=
          fun typ fields h => hrec ⟨typ, fields, h⟩
        rw [leafPaths_cons_other name value rest hn hne]
        constructor
        · intro h
          rcases LeafAt_cons _ _ _ _ _ h with (⟨hn2, _, _⟩ | ⟨t2, f2, _, hv2, _, _, _⟩) | h2
          · rw [hn] at hn2; cases hn2
          · exact absurd hv2 (hne t2 f2)
          · exact (ihr path leaf).mp h2
        · intro h
          exact LeafAt.inRest _ _ _ _ _ ((ihr path leaf).mpr h)

/-- C14 fails as stated: on the record with the fields A int, P *int and
B int, whose nested-record pointers are all allocated as it has none, the
leaf fields A and B stand in leafPaths, but the visitor is called for A
only: doVisit panics inside reflect at P and the leaf B is never called. -/
theorem leaf_after_pointer_to_int_not_called :
    mixedFields.recordPointersAllocated = true ∧
    (leafPaths mixedFields).map Prod.fst = [[goString "A"], [goString "B"]] ∧
    (doVisit sampleTables acceptAll [] (.ptr (.struct (goString "main.Mixed") mixedFields))
        .nil ⟨(), []⟩).1.calls.map Call.environment = [goString "_A"] ∧
    (doVisit sampleTables acceptAll [] (.ptr (.struct (goString "main.Mixed") mixedFields))
        .nil ⟨(), []⟩).2 = .error (.panic "reflect: NumField of non-struct type") := by
  decide

/-- C14 as amended: for every record in which every pointer field whose
type is not a key of terminalTypes is an allocated pointer to a record, and
so on below it, every visitor, every key so far and every starting error
that is nil or an aggregated error, doVisit calls the visitor once for each
entry of leafPaths, the leaf fields in depth-first declaration order, with
that leaf's key and value and in that order, whatever the calls return; the
entries of leafPaths are exactly the leaf fields at the nesting paths, and
none of them is a nested-record field. -/
theorem doVisit_calls_in_order {σ : Type} (U : CaseTables) (v : visitor σ) (P typ : GoString)
    (fields : GoFields) (errs : GoError) (state : σ)
    (halloc : fields.allocated = true) (hf : errs.isForeign = false) :
    (doVisit U v P (.ptr (.struct typ fields)) errs ⟨state, []⟩).1.calls.map Call.keyValue
      = (leafPaths fields).map (fun pv => (envKey U P pv.1, pv.2)) ∧
    (∀ path leaf, LeafAt fields path leaf ↔ (path, leaf) ∈ leafPaths fields) ∧
    (∀ pv ∈ leafPaths fields, pv.2.isNested = false) := by
  refine ⟨?_, LeafAt_iff_mem_leafPaths fields, ?_⟩
  · have hdv : doVisit U v P (.ptr (.struct typ fields)) errs ⟨state, []⟩
        = doVisitFields U v P fields errs ⟨state, []⟩ := by rw [doVisit]
    rw [hdv, doVisitFields_calls_order U v fields P errs ⟨state, []⟩ halloc hf]
    simp
  · intro pv hpv
    exact LeafAt_not_nested fields pv.1 pv.2 ((LeafAt_iff_mem_leafPaths fields pv.1 pv.2).mpr hpv)

/-- C14 as amended, at the record of the tests with a visitor that rejects
every leaf:
the fourteen leaves are called in declaration order, the two leaves of
Nested at the place of Nested, no call being suppressed by a failure. -/
theorem doVisit_calls_in_order_witness :
    (testConfigFields (.ptr testNested)).allocated = true ∧
    GoError.nil.isForeign = false ∧
    (visit sampleTables (testConfig (.ptr testNested)) rejectAll ()).1.calls.map
        Call.environment
      = [goString "_BOOLEAN", goString "_INT", goString "_UINT_8", goString "_UINT_16",
         goString "_UINT_32", goString "_UINT_64", goString "_BIG_INT", goString "_STRING",
         goString "_INT_SLICE", goString "_STRING_SLICE", goString "_NESTED_VALUE",
         goString "_NESTED_BIG_INT_POINTER", goString "_SOME_PASSWORD",
         goString "_Ά本語"] := by
  refine ⟨by decide, rfl, ?_⟩
  have h := (doVisit_calls_in_order sampleTables rejectAll [] (goString "configs_test.Config")
    (testConfigFields (.ptr testNested)) .nil () (by decide) rfl).1
  have hmap : ∀ cs : List Call, cs.map Call.environment
      = (cs.map Call.keyValue).map (fun kv => kv.1.getD []) := by
    intro cs
    rw [List.map_map]
    apply List.map_congr_left
    intro c _
    rfl
  rw [hmap]
  have hv : visit sampleTables (testConfig (.ptr testNested)) rejectAll ()
      = doVisit sampleTables rejectAll [] (.ptr (.struct (goString "configs_test.Config")
          (testConfigFields (.ptr testNested)))) .nil ⟨(), []⟩ := rfl
  rw [hv, h]
  decide

/-! ## The name deriver: claims C18 to C20 -/

/-- C18: the derivation of keys is not injective.  The distinct field names
FooBar and Foo_Bar both give the segment FOO_BAR; and in a record with a
top-level field NestedValue and a nested record Nested with a field Value,
the two leaves, at different paths, are called with the same key. -/
theorem keys_not_injective :
    goString "FooBar" ≠ goString "Foo_Bar" ∧
    envFromName sampleTables (goString "FooBar") = some (goString "FOO_BAR") ∧
    envFromName sampleTables (goString "Foo_Bar") = some (goString "FOO_BAR") ∧
    leafPaths collisionFields
      = [([goString "NestedValue"], .basic (goString "int") (goString "0")),
         ([goString "Nested", goString "Value"], .basic (goString "int") (goString "0"))] ∧
    envKey sampleTables [] [goString "NestedValue"]
      = envKey sampleTables [] [goString "Nested", goString "Value"] ∧
    (visit sampleTables (.ptr (.struct (goString "main.Config") collisionFields))
        acceptAll ()).1.calls.map Call.environment
      = [goString "_NESTED_VALUE", goString "_NESTED_VALUE"] := by
  decide

theorem AppendRune_ascii (b : Nat) (h : b < 0x80) : AppendRune [] b = [b] := by
  unfold AppendRune
  rw [if_pos (by omega)]
  rfl

theorem utf8Encode_ascii (l : List Nat) (h : ∀ b ∈ l, b < 0x80) : utf8Encode l = l := by
  induction l with
  | nil => rfl
  | cons b l ih =>
    rw [utf8Encode_cons, AppendRune_ascii b (h b (List.mem_cons_self _ _)),
      ih (fun x hx => h x (List.mem_cons_of_mem _ hx))]
    rfl

theorem ValidRune_of_ascii (b : Nat) (h : b < 0x80) : ValidRune b := by
  unfold ValidRune MaxRune
  omega

theorem ToUpper_ascii (U : CaseTables) (hU : AsciiTables U) (c : Nat) (h : c < 0x80) :
    U.ToUpper c < 0x80 ∧ ¬ (0x61 ≤ U.ToUpper c ∧ U.ToUpper c ≤ 0x7A) := by
  rw [(hU c h).2.2]
  split_ifs <;> omega

theorem snakeTail_ascii (U : CaseTables) (hU : AsciiTables U) (cs : List Nat) :
    ∀ last, (∀ c ∈ cs, c < 0x80) →
      ∀ b ∈ snakeTail U last cs, b < 0x80 ∧ ¬ (0x61 ≤ b ∧ b ≤ 0x7A) := by
  induction cs with
  | nil => intro _ _ b hb; simp [snakeTail] at hb
  | cons c cs ih =>
    intro last hc b hb
    have hc0 := hc c (List.mem_cons_self _ _)
    have hup := ToUpper_ascii U hU c hc0
    simp only [snakeTail, List.mem_append] at hb
    rcases hb with hb | hb
    · split_ifs at hb
      · simp only [List.mem_cons, List.mem_singleton, List.not_mem_nil, or_false] at hb
        rcases hb with hb | hb
        · subst hb; omega
        · subst hb; exact hup
      · simp only [List.mem_singleton] at hb
        subst hb; exact hup
    · exact ih c (fun x hx => hc x (List.mem_cons_of_mem _ hx)) b hb

theorem upperSnake_ascii (U : CaseTables) (hU : AsciiTables U) (cs : List Nat)
    (hc : ∀ c ∈ cs, c < 0x80) :
    ∀ b ∈ upperSnake U cs, b < 0x80 ∧ ¬ (0x61 ≤ b ∧ b ≤ 0x7A) := by
  cases cs with
  | nil => intro b hb; simp [upperSnake] at hb
  | cons c cs =>
    intro b hb
    simp only [upperSnake, List.mem_cons] at hb
    rcases hb with hb | hb
    · subst hb
      exact ToUpper_ascii U hU c (hc c (List.mem_cons_self _ _))
    · exact snakeTail_ascii U hU cs c (fun x hx => hc x (List.mem_cons_of_mem _ hx)) b hb

theorem upperSnake_ne_nil (U : CaseTables) (cs : List Nat) (h : cs ≠ []) :
    upperSnake U cs ≠ [] := by
  cases cs with
  | nil => exact absurd rfl h
  | cons c cs => simp [upperSnake]

theorem upperSnake_fixed (U : CaseTables) (rs : List Nat)
    (hfix : ∀ r ∈ rs, U.IsLower r = false ∧ U.ToUpper r = r) : upperSnake U rs = rs := by
  cases rs with
  | nil => rfl
  | cons r rs =>
    have hr := hfix r (List.mem_cons_self _ _)
    rw [upperSnake, hr.2, snakeTail_fixed U rs r hr.1
      (fun x hx => hfix x (List.mem_cons_of_mem _ hx))]

theorem sampleTables_ascii : AsciiTables sampleTables := by
  intro r hr
  refine ⟨?_, ?_, ?_⟩
  · simp only [sampleTables]
    have : r ≠ 0x386 := by omega
    simp [this]
  · simp only [sampleTables]
    have : r ≠ 0x3AC := by omega
    simp [this]
  · simp only [sampleTables]
    have : r ≠ 0x3AC := by omega
    simp [this]

/-- C19: with case tables that agree with Go on ASCII, for every non-empty
ASCII name envFromName returns a segment on which envFromName returns the
same segment again, and the segment contains no lower-case ASCII letter. -/
theorem envFromName_idempotent_ascii (U : CaseTables) (hU : AsciiTables U) (name : GoString)
    (hne : name ≠ []) (hascii : ∀ b ∈ name, b < 0x80) :
    ∃ segment, envFromName U name = some segment ∧
      envFromName U segment = some segment ∧
      ∀ b ∈ segment, ¬ (0x61 ≤ b ∧ b ≤ 0x7A) := by
  have h1 : envFromName U name = some (upperSnake U name) := by
    have h := envFromName_encode U name hne (fun r hr => ValidRune_of_ascii r (hascii r hr))
    rw [utf8Encode_ascii name hascii] at h
    rw [h, utf8Encode_ascii _ (fun b hb => (upperSnake_ascii U hU name hascii b hb).1)]
  have hout := upperSnake_ascii U hU name hascii
  refine ⟨upperSnake U name, h1, ?_, fun b hb => (hout b hb).2⟩
  have hfix : ∀ r ∈ upperSnake U name, U.IsLower r = false ∧ U.ToUpper r = r := by
    intro r hr
    obtain ⟨hlt, hnl⟩ := hout r hr
    obtain ⟨_, hlow, hup⟩ := hU r hlt
    refine ⟨?_, ?_⟩
    · rw [hlow]; exact decide_eq_false hnl
    · rw [hup, if_neg hnl]
  have h2 := envFromName_encode U (upperSnake U name) (upperSnake_ne_nil U name hne)
    (fun r hr => ValidRune_of_ascii r (hout r hr).1)
  rw [utf8Encode_ascii _ (fun b hb => (hout b hb).1), upperSnake_fixed U _ hfix,
    utf8Encode_ascii _ (fun b hb => (hout b hb).1)] at h2
  exact h2

/-- C19 at the field name BigIntPointer. -/
theorem envFromName_idempotent_ascii_witness :
    AsciiTables sampleTables ∧ goString "BigIntPointer" ≠ [] ∧
    (∀ b ∈ goString "BigIntPointer", b < 0x80) ∧
    ∃ segment, envFromName sampleTables (goString "BigIntPointer") = some segment ∧
      envFromName sampleTables segment = some segment ∧
      ∀ b ∈ segment, ¬ (0x61 ≤ b ∧ b ≤ 0x7A) :=
  ⟨sampleTables_ascii, by decide, by decide,
    envFromName_idempotent_ascii sampleTables sampleTables_ascii (goString "BigIntPointer")
      (by decide) (by decide)⟩

theorem envLoop_nil (U : CaseTables) (fuel lastRune : Nat) (sb : GoString) :
    envLoop U fuel lastRune [] sb = some sb := by
  cases fuel <;> simp [envLoop]

theorem decodeRest_nil (fuel : Nat) : decodeRest fuel [] = [] := by
  cases fuel <;> simp [decodeRest]

theorem drop_width_lt (rest : GoString) (h : rest ≠ []) :
    1 ≤ (DecodeRuneInString rest).2 ∧
    (rest.drop (DecodeRuneInString rest).2).length < rest.length := by
  have hw := decode_width_pos rest h
  have hpos : 0 < rest.length := List.length_pos.mpr h
  refine ⟨hw, ?_⟩
  rw [List.length_drop]
  omega

theorem envLoop_decoded (U : CaseTables) (fuel : Nat) :
    ∀ (lastRune : Nat) (rest sb : GoString), rest.length ≤ fuel →
      envLoop U fuel lastRune rest sb
        = some (sb ++ utf8Encode (snakeTail U lastRune (decodeRest fuel rest))) := by
  induction fuel with
  | zero =>
    intro lastRune rest sb h
    have : rest = [] := List.length_eq_zero.mp (by omega)
    subst this
    simp [envLoop_nil, decodeRest_nil, snakeTail, utf8Encode]
  | succ n ih =>
    intro lastRune rest sb h
    by_cases hr : rest = []
    · subst hr
      simp [envLoop_nil, decodeRest_nil, snakeTail, utf8Encode]
    · have hpos : 0 < rest.length := List.length_pos.mpr hr
      have hlt := (drop_width_lt rest hr).2
      have hd : decodeRest (n + 1) rest
          = (DecodeRuneInString rest).1
            :: decodeRest n (rest.drop (DecodeRuneInString rest).2) := by
        rw [decodeRest]
        simp only [gt_iff_lt, hpos, if_true]
      rw [hd]
      unfold envLoop
      simp only [gt_iff_lt, hpos, if_true]
      rw [ih _ _ _ (by omega), AppendRune_eq_append]
      have h5F : utf8Encode [0x5F] = [0x5F] := by decide
      by_cases hc : (U.IsUpper (DecodeRuneInString rest).1 && U.IsLower lastRune) = true
      · simp only [hc, if_true, snakeTail]
        rw [show [0x5F, U.ToUpper (DecodeRuneInString rest).1]
            = [0x5F] ++ [U.ToUpper (DecodeRuneInString rest).1] from rfl,
          utf8Encode_append, utf8Encode_append, h5F, utf8Encode_cons]
        simp [utf8Encode]
      · have hc2 : (U.IsUpper (DecodeRuneInString rest).1 && U.IsLower lastRune) = false := by
          simpa using hc
        simp only [hc2, snakeTail, Bool.false_eq_true, if_false]
        rw [utf8Encode_append, utf8Encode_cons]
        simp [utf8Encode]

theorem envLoop_fuel (U : CaseTables) (n : Nat) :
    ∀ (fuel lastRune : Nat) (rest sb : GoString), rest.length ≤ n → n ≤ fuel →
      envLoop U fuel lastRune rest sb = envLoop U n lastRune rest sb := by
  induction n with
  | zero =>
    intro fuel lastRune rest sb h _
    have : rest = [] := List.length_eq_zero.mp (by omega)
    subst this
    rw [envLoop_nil, envLoop_nil]
  | succ n ih =>
    intro fuel lastRune rest sb h hle
    by_cases hr : rest = []
    · subst hr
      rw [envLoop_nil, envLoop_nil]
    · have hpos : 0 < rest.length := List.length_pos.mpr hr
      have hlt := (drop_width_lt rest hr).2
      cases fuel with
      | zero => omega
      | succ m =>
        rw [envLoop, envLoop]
        simp only [gt_iff_lt, hpos, if_true]
        exact ih m _ _ _ (by omega) (by omega)

theorem snakeTail_length (U : CaseTables) (cs : List Nat) :
    ∀ last, (snakeTail U last cs).length = cs.length + underscoreCount U last cs := by
  induction cs with
  | nil => intro _; rfl
  | cons c cs ih =>
    intro last
    simp only [snakeTail, underscoreCount, List.length_append, ih c, List.length_cons]
    split_ifs <;> simp <;> omega

/-- C20: envFromName terminates on every input string, ill-formed UTF-8
included.  On the fuel given by the length of the name it returns a result,
the encoding of upperSnake of the code points it decoded: one output code
point per decoded code point plus the inserted underscores.  Every decoding
from a non-empty remainder has a width of at least one byte, so the
remainder shrinks; and any larger fuel gives the same result of the loop. -/
theorem envFromName_terminates (U : CaseTables) (name : GoString) :
    envFromName U name = some (utf8Encode (upperSnake U (decodedRunes name))) ∧
    (upperSnake U (decodedRunes name)).length
      = (decodedRunes name).length + underscoreTotal U (decodedRunes name) ∧
    (∀ rest : GoString, rest ≠ [] →
      1 ≤ (DecodeRuneInString rest).2 ∧
      (rest.drop (DecodeRuneInString rest).2).length < rest.length) ∧
    (∀ (fuel lastRune : Nat) (rest sb : GoString), rest.length ≤ fuel →
      envLoop U fuel lastRune rest sb = envLoop U rest.length lastRune rest sb) ∧
    envFromName sampleTables [0xFF, 0x61] = some [0xEF, 0xBF, 0xBD, 0x41] := by
  refine ⟨?_, ?_, drop_width_lt, ?_, by decide⟩
  · unfold envFromName decodedRunes
    simp only []
    rw [envLoop_decoded U _ _ _ _ (by simp), upperSnake, utf8Encode_cons]
  · simp only [decodedRunes, upperSnake, underscoreTotal, List.length_cons, snakeTail_length]
    omega
  · intro fuel lastRune rest sb h
    exact envLoop_fuel U rest.length fuel lastRune rest sb (le_refl _) h

end Configs
